import Mathlib

/-!
Verification development for the function-rewriting engine of the
Human-body-measurement repository (files
`deployment/core/rewriters/rewriter_utils.py` and
`deployment/core/rewriters/function_rewriter.py`).

The Python code is shallowly embedded:

* Python function objects become `Func` values carrying an identity and a
  qualified name; `copy_function` allocates a fresh identity with the same
  qualified name (`functools.update_wrapper` copies the metadata).
* dotted function paths are modelled pre-split, as the pair of the dotted
  prefix (`'.'.join(split_path[:-1])`) and the final component.
* Python dictionaries become association lists or Lean functions into
  `Option`; an exception propagating out of a modelled operation becomes
  `Option.none` / an `Option` result.
* The live module/class graph is `LiveGraph`: a map from names to classes
  (each with its own attribute dictionary and optional base class) plus a
  map from paths to module-level attributes.  `mroFuel` bounds the depth of
  the inheritance chain walked by attribute lookup; Python guarantees the
  chain is finite.
* `gc.get_referrers`-based reference repair in `_replace_all_obj` only
  rewrites extra aliases of a function object; it never changes what a
  function path itself evaluates to, which is the only observable the
  claims mention, so it is not modelled.
-/

/-- Model of a Python function object: an identity (distinguishing distinct
objects) and the qualified name reported by `get_func_qualname`. -/
structure Func where
  id : Nat
  qualname : String
deriving DecidableEq

/-- A dotted function path, pre-split into the dotted prefix
(`'.'.join(split_path[:-1])`) and the final attribute name. -/
structure FuncPath where
  parent : String
  name : String
deriving DecidableEq

/-- Dotted string form of a path, used as a `_func_contexts` key in
`FunctionRewriter.enter`. -/
def FuncPath.toStr (p : FuncPath) : String :=
  p.parent ++ "." ++ p.name

/-- Split a character list at every dot, as `str.split('.')` does. -/
def splitOnDot : List Char → List (List Char)
  | [] => [[]]
  | c :: rest =>
    match splitOnDot rest with
    | [] => if c = '.' then [[], []] else [[c]]
    | h :: t => if c = '.' then [] :: h :: t else (c :: h) :: t

/-- Numeric value of a non-empty all-digit component, `none` otherwise. -/
def charsToNat? (cs : List Char) : Option Nat :=
  if cs ≠ [] ∧ cs.all (fun c => c.isDigit) then
    some (cs.foldl (fun a c => a * 10 + (c.toNat - 48)) 0)
  else none

/-- Release tuple of a version string, as produced by
`packaging.version.parse` on plain release versions: the dot-separated
numeric components. -/
def parseVersion (s : String) : List Nat :=
  (splitOnDot s.toList).map (fun cs => (charsToNat? cs).getD 0)

/-- Strict comparison of release tuples; a missing component counts as zero,
matching `packaging.version` ordering on release-only versions. -/
def versionLt : List Nat → List Nat → Bool
  | [], bs => bs.any (fun b => 0 < b)
  | a :: as', [] => if 0 < a then false else versionLt as' []
  | a :: as', b :: bs => if a < b then true else if b < a then false else versionLt as' bs

/-- Environment record built by `collect_env`: the active backend and IR,
and for every library name the installed version (or `none` when the
library is reported absent, i.e. `env[lib] is None`). -/
structure Env where
  backend : String
  ir : String
  libs : String → Option String

/-- The checker variants of `rewriter_utils.py`: `BackendChecker`,
`IRChecker` and `LibVersionChecker`. -/
inductive Checker where
  | backend (required_backend : String)
  | ir (required_ir : String)
  | libVersion (lib : String) (min_version : Option String) (max_version : Option String)
deriving DecidableEq

/-- Direct translation of the three `check` methods.  `LibVersionChecker`
returns `false` when the library is reported absent, then compares the
parsed version against the optional bounds exactly as the two `if`
statements of the source do. -/
def Checker.check (c : Checker) (env : Env) : Bool :=
  match c with
  | .backend req => env.backend = req
  | .ir req => env.ir = req
  | .libVersion lib min_version max_version =>
    match env.libs lib with
    | none => false
    | some v =>
      let valid := true
      let valid := match min_version with
        | some mn => if versionLt (parseVersion v) (parseVersion mn) then false else valid
        | none => valid
      let valid := match max_version with
        | some mx => if versionLt (parseVersion mx) (parseVersion v) then false else valid
        | none => valid
      valid

/-- One registration record: the checker list stored under `_checkers` and
the replacement callable stored under `_object`.  Extra keyword metadata is
carried by no claim and is not modelled. -/
structure Record where
  checkers : List Checker
  object : Func
deriving DecidableEq

/-- The registry table `_rewrite_records`: an association list from function
path to the list of records registered for it, in registration order. -/
structure RewriterRegistry where
  rewrite_records : List (FuncPath × List Record)

/-- Predicate for a candidate that is valid in `env`: it has a non-empty
checker list and every checker passes. -/
def validIn (env : Env) (r : Record) : Bool :=
  !r.checkers.isEmpty && r.checkers.all (fun c => c.check env)

/-- Inner loop of `get_records` over the record list of one path.  The
accumulator mirrors the local variables `default_rewriter` and
`final_rewriter`; the third component counts emitted warnings. -/
def selectLoop (env : Env) : List Record → Option Record → Option Record → Nat →
    Option Record × Option Record × Nat
  | [], d, f, w => (d, f, w)
  | r :: rest, d, f, w =>
    if r.checkers.isEmpty then
      match d with
      | none => selectLoop env rest (some r) f w
      | some _ => selectLoop env rest d f (w + 1)
    else
      if r.checkers.all (fun c => c.check env) then
        match f with
        | some _ => selectLoop env rest d f (w + 1)
        | none => selectLoop env rest d (some r) w
      else
        selectLoop env rest d f w

/-- Outer loop of `get_records` over the registry entries, producing the
`default_records` list, the `records` list and the warning count. -/
def getRecordsLoop (env : Env) : List (FuncPath × List Record) →
    List (FuncPath × Record) × List (FuncPath × Record) × Nat
  | [] => ([], [], 0)
  | e :: rest =>
    let sel := selectLoop env e.2 none none 0
    let tail := getRecordsLoop env rest
    match sel.2.1 with
    | some r => (tail.1, (e.1, r) :: tail.2.1, sel.2.2 + tail.2.2)
    | none =>
      match sel.1 with
      | some d => ((e.1, d) :: tail.1, tail.2.1, sel.2.2 + tail.2.2)
      | none => (tail.1, tail.2.1, sel.2.2 + tail.2.2)

/-- Translation of `RewriterRegistry.get_records`: the resolved list is
`default_records + records`, and the second component counts the warnings
emitted by `warnings.warn` during resolution.  The source raises no
exception on this code path; the model is a total function. -/
def RewriterRegistry.get_records (reg : RewriterRegistry) (env : Env) :
    List (FuncPath × Record) × Nat :=
  let res := getRecordsLoop env reg.rewrite_records
  (res.1 ++ res.2.1, res.2.2)

/-- Append a record to the candidate list of a path, creating the key when
absent; this is the tail of `RewriterRegistry._register`. -/
def addRecord (table : List (FuncPath × List Record)) (name : FuncPath) (r : Record) :
    List (FuncPath × List Record) :=
  match table with
  | [] => [(name, [r])]
  | (k, l) :: rest =>
    if k = name then (k, l ++ [r]) :: rest else (k, l) :: addRecord rest name r

/-- Translation of `RewriterRegistry.register_object` followed by
`_register`: a non-default backend or IR token is turned into an implicit
checker appended after the extra checkers, and the record is appended to
the candidate list of the path. -/
def RewriterRegistry.register_object (reg : RewriterRegistry) (name : FuncPath)
    (backend : String) (ir : String) (extra_checkers : List Checker) (object : Func) :
    RewriterRegistry :=
  let checkers := extra_checkers
    ++ (if backend ≠ "default" then [Checker.backend backend] else [])
    ++ (if ir ≠ "default" then [Checker.ir ir] else [])
  ⟨addRecord reg.rewrite_records name ⟨checkers, object⟩⟩

/-- Remove the first table entry with the given key. -/
def eraseKeyTable (table : List (FuncPath × List Record)) (k : FuncPath) :
    List (FuncPath × List Record) :=
  match table with
  | [] => []
  | (k', l) :: rest => if k' = k then rest else (k', l) :: eraseKeyTable rest k

/-- Replace the record list of the first table entry with the given key. -/
def setKeyTable (table : List (FuncPath × List Record)) (k : FuncPath)
    (l : List Record) : List (FuncPath × List Record) :=
  match table with
  | [] => []
  | (k', l') :: rest => if k' = k then (k', l) :: rest else (k', l') :: setKeyTable rest k l

/-- One step of the second loop of `remove_record`: look up the key, remove
the first occurrence of the record, and pop the key when its list becomes
empty.  The lookup cannot fail on the pairs collected by the first loop. -/
def removeOne (table : List (FuncPath × List Record)) (kr : FuncPath × Record) :
    List (FuncPath × List Record) :=
  match List.lookup kr.1 table with
  | none => table
  | some records =>
    let records' := records.erase kr.2
    if records'.isEmpty then eraseKeyTable table kr.1 else setKeyTable table kr.1 records'

/-- Translation of `RewriterRegistry.remove_record`: collect every
`(key, record)` pair whose payload equals `object` and that the filter does
not keep, then remove them one by one, popping keys whose candidate list
becomes empty. -/
def RewriterRegistry.remove_record (reg : RewriterRegistry) (object : Func)
    (filter_cb : Option (Record → Bool)) : RewriterRegistry :=
  let key_to_pop := reg.rewrite_records.foldl
    (fun acc kv => acc ++ (kv.2.filter (fun rec' =>
      rec'.object = object &&
        (match filter_cb with
         | some cb => !cb rec'
         | none => true))).map (fun rec' => (kv.1, rec'))) []
  ⟨key_to_pop.foldl removeOne reg.rewrite_records⟩

/-- A live class object: its own attribute dictionary (`__dict__`) and the
optional base class it inherits from. -/
structure ClassDef where
  own : String → Option Func
  base : Option String

/-- The live module/object graph: the loaded classes, keyed by their dotted
path, the module-level attributes, keyed by full path, and a bound on the
depth of any inheritance chain (finite in Python). -/
structure LiveGraph where
  classes : String → Option ClassDef
  moduleAttrs : FuncPath → Option Func
  mroFuel : Nat

/-- Attribute lookup on a class as performed by evaluating `cls.name`: the
own dictionary first, then the base-class chain. -/
def classGetattr (g : LiveGraph) : Nat → String → String → Option Func
  | 0, _, _ => none
  | Nat.succ fuel, cls, name =>
    match g.classes cls with
    | none => none
    | some cd =>
      match cd.own name with
      | some f => some f
      | none =>
        match cd.base with
        | none => none
        | some b => classGetattr g fuel b name

/-- Evaluation of a dotted path in the live graph, as done by
`eval(path)` after the imports: a class-attribute lookup when the parent
names a class, a module-attribute lookup otherwise. -/
def pathEval (g : LiveGraph) (p : FuncPath) : Option Func :=
  match g.classes p.parent with
  | some _ => classGetattr g g.mroFuel p.parent p.name
  | none => g.moduleAttrs p

/-- Translation of `import_function`: evaluate the path and report the
owning class when the parent is a class; `none` models the exception
raised when the path does not resolve. -/
def import_function (g : LiveGraph) (p : FuncPath) : Option (Func × Option String) :=
  match g.classes p.parent with
  | some _ => (classGetattr g g.mroFuel p.parent p.name).map (fun f => (f, some p.parent))
  | none => (g.moduleAttrs p).map (fun f => (f, none))

/-- The probe `origin_class.__getattribute__(origin_class, function_name)`
used by `enter` to classify targets: it consults only the own attribute
dictionary of the class, never the base-class chain. -/
def ownGetattribute (g : LiveGraph) (cls : String) (name : String) : Option Func :=
  (g.classes cls).bind (fun cd => cd.own name)

/-- The pure effect of the final `exec(f'{origin_func_path} = rewrite_func')`
of `_set_func`: write the value into the own dictionary of the parent class,
or into the module attribute table. -/
def writePath (g : LiveGraph) (pf : FuncPath × Func) : LiveGraph :=
  match g.classes pf.1.parent with
  | some cd =>
    { g with classes := fun c =>
        if c = pf.1.parent then
          some { cd with own := fun n => if n = pf.1.name then some pf.2 else cd.own n }
        else g.classes c }
  | none =>
    { g with moduleAttrs := fun q => if q = pf.1 then some pf.2 else g.moduleAttrs q }

/-- Translation of `_set_func`: evaluating the origin path must succeed
(`origin_func = eval(origin_func_path)` raises otherwise, modelled by
`none`), after which the assignment is performed. -/
def set_func (g : LiveGraph) (p : FuncPath) (f : Func) : Option LiveGraph :=
  match pathEval g p with
  | none => none
  | some _ => some (writePath g (p, f))

/-- Translation of `_del_func`: `del` removes the own-dictionary entry of a
class attribute, or the module attribute; when the entry is absent the
raised exception is swallowed by the surrounding `try` and the graph is
left unchanged. -/
def del_func (g : LiveGraph) (p : FuncPath) : LiveGraph :=
  match g.classes p.parent with
  | some cd =>
    match cd.own p.name with
    | some _ =>
      { g with classes := fun c =>
          if c = p.parent then
            some { cd with own := fun n => if n = p.name then none else cd.own n }
          else g.classes c }
    | none => g
  | none =>
    match g.moduleAttrs p with
    | some _ => { g with moduleAttrs := fun q => if q = p then none else g.moduleAttrs q }
    | none => g

/-- A `ContextCaller`: the (copied) rewrite function and the original
function it replaces.  The config and extra metadata are observed by no
claim and are not modelled. -/
structure ContextCaller where
  func : Func
  origin_func : Option Func
deriving DecidableEq

/-- Append a caller under a key of the `defaultdict(list)` table
`_func_contexts`. -/
def contextsAdd (m : List (String × List ContextCaller)) (k : String)
    (c : ContextCaller) : List (String × List ContextCaller) :=
  match m with
  | [] => [(k, [c])]
  | (k', l) :: rest =>
    if k' = k then (k', l ++ [c]) :: rest else (k', l) :: contextsAdd rest k c

/-- Translation of `copy_function`: a fresh function object carrying the
metadata (qualified name) of the template, as `functools.update_wrapper`
copies it. -/
def copy_function (next_id : Nat) (f : Func) : Func × Nat :=
  (⟨next_id, f.qualname⟩, next_id + 1)

/-- The state owned by a `FunctionRewriter` together with the process-wide
pieces it mutates: the live graph, the `_wrapped_fns_to_patch` tracing
allowlist, the `_func_contexts` table, and the session attributes that
`enter` assigns.  The `Option` session fields are `none` exactly when the
corresponding Python attribute has never been assigned, so that reading it
raises `AttributeError` (modelled by the operation returning `none`).
`next_id` feeds fresh identities to `copy_function`. -/
structure RWState where
  graph : LiveGraph
  wrapped_fns : List Func
  func_contexts : List (String × List ContextCaller)
  ori_fx_wrap_num : Option Nat
  origin_functions : Option (List (FuncPath × Func))
  additional_functions : Option (List FuncPath)
  next_id : Nat

/-- A freshly constructed `FunctionRewriter` (its `__init__` assigns only
the registry and the empty context table) in a world with the given live
graph and tracing allowlist. -/
def FunctionRewriter.init (g : LiveGraph) (fx : List Func) (nid : Nat) : RWState :=
  { graph := g
    wrapped_fns := fx
    func_contexts := []
    ori_fx_wrap_num := none
    origin_functions := none
    additional_functions := none
    next_id := nid }

/-- Accumulator of the first loop of `enter`, mirroring the local lists it
builds. -/
structure EnterAcc where
  origin_functions : List (FuncPath × Func)
  additional_functions : List FuncPath
  func_contexts : List (String × List ContextCaller)
  new_functions : List (FuncPath × Func)
  wrapped_fns : List Func
  next_id : Nat

/-- First loop of `enter` over the resolved records: import each target
(skipping with a warning when the import fails), classify additions with
the own-dictionary probe, snapshot the original, copy the rewrite function,
build its `ContextCaller`, register it under both the qualified name and
the path string, and extend the tracing allowlist when the template is
wrapped (`is_wrapped` models membership of its globals in
`_wrapped_fns_to_patch`). -/
def enterLoop (g : LiveGraph) (is_wrapped : Func → Bool) :
    List (FuncPath × Record) → EnterAcc → EnterAcc
  | [], acc => acc
  | (p, rec') :: rest, acc =>
    match import_function g p with
    | none => enterLoop g is_wrapped rest acc
    | some (origin_func, origin_class) =>
      let is_addition : Bool :=
        match origin_class with
        | some cls => (ownGetattribute g cls p.name).isNone
        | none => false
      let copied := copy_function acc.next_id rec'.object
      let ctx : ContextCaller := ⟨copied.1, some origin_func⟩
      let ctxs1 := contextsAdd acc.func_contexts copied.1.qualname ctx
      let ctxs2 := contextsAdd ctxs1 p.toStr ctx
      enterLoop g is_wrapped rest
        { origin_functions := acc.origin_functions ++ [(p, origin_func)]
          additional_functions :=
            if is_addition then acc.additional_functions ++ [p] else acc.additional_functions
          func_contexts := ctxs2
          new_functions := acc.new_functions ++ [(p, copied.1)]
          wrapped_fns :=
            if is_wrapped rec'.object then acc.wrapped_fns ++ [copied.1] else acc.wrapped_fns
          next_id := copied.2 }

/-- Second loop of `enter` and the restore loop of `exit`: apply `_set_func`
to each cached pair in order; an exception (`none`) propagates. -/
def setAll (g : LiveGraph) : List (FuncPath × Func) → Option LiveGraph
  | [] => some g
  | (p, f) :: rest =>
    match set_func g p f with
    | none => none
    | some g' => setAll g' rest

/-- Translation of `FunctionRewriter.enter`: clear the context table,
resolve the registry, record the current allowlist length, run the first
loop, then apply all substitutions. -/
def FunctionRewriter.enter (reg : RewriterRegistry) (env : Env)
    (is_wrapped : Func → Bool) (s : RWState) : Option RWState :=
  let functions_records := (reg.get_records env).1
  let ori_num := s.wrapped_fns.length
  let acc := enterLoop s.graph is_wrapped functions_records
    { origin_functions := []
      additional_functions := []
      func_contexts := []
      new_functions := []
      wrapped_fns := s.wrapped_fns
      next_id := s.next_id }
  match setAll s.graph acc.new_functions with
  | none => none
  | some g' =>
    some { graph := g'
           wrapped_fns := acc.wrapped_fns
           func_contexts := acc.func_contexts
           ori_fx_wrap_num := some ori_num
           origin_functions := some acc.origin_functions
           additional_functions := some acc.additional_functions
           next_id := acc.next_id }

/-- Translation of `FunctionRewriter.exit`: reading any of the session
attributes that only `enter` assigns raises `AttributeError` on an inactive
rewriter (modelled by `none`); otherwise pop the allowlist entries added
since `enter`, write every snapshot back, delete every addition, and clear
the context table.  The session attributes themselves stay assigned, as in
the source. -/
def FunctionRewriter.exit (s : RWState) : Option RWState :=
  match s.ori_fx_wrap_num, s.origin_functions, s.additional_functions with
  | some ori, some origins, some adds =>
    let cur := s.wrapped_fns.length
    let wrapped' := s.wrapped_fns.take (cur - (cur - ori))
    match setAll s.graph origins with
    | none => none
    | some g1 =>
      some { s with graph := adds.foldl del_func g1
                    wrapped_fns := wrapped'
                    func_contexts := [] }
  | _, _, _ => none

/-- Translation of `FunctionRewriter.get_context`.  The caller-frame
inspection of `get_frame_func(2)`/`get_func_qualname` is modelled by the
`frame_func`/`frame_qual` arguments (the calling function one frame up and
its qualified name).  The outer `Option` is `none` when an assertion fails;
`some none` is the `None` return after the lookup-failure warning. -/
def FunctionRewriter.get_context (contexts : List (String × List ContextCaller))
    (key : Option String) (frame_func : Func) (frame_qual : String) :
    Option (Option ContextCaller) :=
  match key with
  | some k =>
    match (List.lookup k contexts).getD [] with
    | [ctx] => some (some ctx)
    | _ => none
  | none =>
    let ctxs := (List.lookup frame_qual contexts).getD []
    some (ctxs.foldl (fun acc t => if t.func = frame_func then some t else acc) none)

/-! Lemmas about the resolution loop of `get_records`. -/

theorem selectLoop_final_some (env : Env) (recs : List Record) (d : Option Record)
    (r₀ : Record) (w : Nat) : (selectLoop env recs d (some r₀) w).2.1 = some r₀ := by
  induction recs generalizing d w with
  | nil => rfl
  | cons r rest ih =>
    simp only [selectLoop]
    split
    · cases d <;> simp [ih]
    · split
      · simp [ih]
      · simp [ih]

theorem selectLoop_final_none (env : Env) (recs : List Record) (d : Option Record)
    (w : Nat) : (selectLoop env recs d none w).2.1 = recs.find? (validIn env) := by
  induction recs generalizing d w with
  | nil => rfl
  | cons r rest ih =>
    simp only [selectLoop, List.find?]
    by_cases he : r.checkers.isEmpty
    · have hv : validIn env r = false := by simp [validIn, he]
      simp only [he, if_true, hv]
      cases d <;> simp [ih]
    · by_cases hc : r.checkers.all (fun c => c.check env)
      · have hv : validIn env r = true := by simp [validIn, he, hc]
        simp [he, hc, hv, selectLoop_final_some]
      · have hv : validIn env r = false := by simp [validIn, hc]
        simp [he, hc, hv, ih]

theorem selectLoop_default_some (env : Env) (recs : List Record) (f : Option Record)
    (d₀ : Record) (w : Nat) : (selectLoop env recs (some d₀) f w).1 = some d₀ := by
  induction recs generalizing f w with
  | nil => rfl
  | cons r rest ih =>
    simp only [selectLoop]
    split
    · simp [ih]
    · split
      · cases f <;> simp [ih]
      · simp [ih]

theorem selectLoop_default_none (env : Env) (recs : List Record) (f : Option Record)
    (w : Nat) : (selectLoop env recs none f w).1 =
      recs.find? (fun r => r.checkers.isEmpty) := by
  induction recs generalizing f w with
  | nil => rfl
  | cons r rest ih =>
    simp only [selectLoop, List.find?]
    by_cases he : r.checkers.isEmpty
    · simp [he, selectLoop_default_some]
    · by_cases hc : r.checkers.all (fun c => c.check env)
      · cases f <;> simp [he, hc, ih]
      · simp [he, hc, ih]

theorem selectLoop_warn_le (env : Env) (recs : List Record) (d f : Option Record)
    (w : Nat) : w ≤ (selectLoop env recs d f w).2.2 := by
  induction recs generalizing d f w with
  | nil => exact Nat.le_refl w
  | cons r rest ih =>
    simp only [selectLoop]
    split
    · cases d
      · exact ih _ _ _
      · exact Nat.le_trans (Nat.le_succ w) (ih _ _ _)
    · split
      · cases f
        · exact ih _ _ _
        · exact Nat.le_trans (Nat.le_succ w) (ih _ _ _)
      · exact ih _ _ _

theorem selectLoop_warn_of_valid_fsome (env : Env) (recs : List Record)
    (d : Option Record) (r₀ : Record) (w : Nat)
    (h : ∃ r ∈ recs, validIn env r = true) :
    w + 1 ≤ (selectLoop env recs d (some r₀) w).2.2 := by
  induction recs generalizing d w with
  | nil => simp at h
  | cons r rest ih =>
    obtain ⟨r', hr', hv'⟩ := h
    simp only [selectLoop]
    by_cases he : r.checkers.isEmpty
    · have hrest : ∃ x ∈ rest, validIn env x = true := by
        rcases List.mem_cons.mp hr' with h1 | h1
        · subst h1
          simp [validIn, he] at hv'
        · exact ⟨r', h1, hv'⟩
      simp only [he, if_true]
      cases d
      · exact ih _ _ hrest
      · exact Nat.le_trans (Nat.succ_le_succ (Nat.le_succ w)) (ih _ _ hrest)
    · by_cases hc : r.checkers.all (fun c => c.check env)
      · simp only [he, hc]
        simp only [Bool.not_eq_true] at he
        simp [he]
        exact selectLoop_warn_le env rest d (some r₀) (w + 1)
      · have hrest : ∃ x ∈ rest, validIn env x = true := by
          rcases List.mem_cons.mp hr' with h1 | h1
          · subst h1
            simp [validIn, hc] at hv'
          · exact ⟨r', h1, hv'⟩
        simp only [he, hc, if_false]
        exact ih _ _ hrest

theorem selectLoop_warn_of_two_valid (env : Env) (recs : List Record)
    (d : Option Record) (w : Nat)
    (h : 2 ≤ recs.countP (fun r => validIn env r)) :
    w + 1 ≤ (selectLoop env recs d none w).2.2 := by
  induction recs generalizing d w with
  | nil => simp [List.countP_nil] at h
  | cons r rest ih =>
    simp only [selectLoop]
    by_cases he : r.checkers.isEmpty
    · have hv : validIn env r = false := by simp [validIn, he]
      have hb : (r :: rest).countP (fun r => validIn env r) =
          rest.countP (fun r => validIn env r) := by
        rw [List.countP_cons]
        simp [hv]
      have hrest : 2 ≤ rest.countP (fun r => validIn env r) := by omega
      simp only [he, if_true]
      cases d
      · exact ih _ _ hrest
      · exact Nat.le_trans (Nat.succ_le_succ (Nat.le_succ w)) (ih _ _ hrest)
    · by_cases hc : r.checkers.all (fun c => c.check env)
      · have hb : (r :: rest).countP (fun r => validIn env r) ≤
            rest.countP (fun r => validIn env r) + 1 := by
          rw [List.countP_cons]
          split <;> omega
        have hrest : 0 < rest.countP (fun r => validIn env r) := by omega
        obtain ⟨r', hr', hv'⟩ := List.countP_pos_iff.mp hrest
        simp only [he, hc, if_false, if_true]
        exact selectLoop_warn_of_valid_fsome env rest d r w ⟨r', hr', hv'⟩
      · have hv : validIn env r = false := by simp [validIn, hc]
        have hb : (r :: rest).countP (fun r => validIn env r) =
            rest.countP (fun r => validIn env r) := by
          rw [List.countP_cons]
          simp [hv]
        have hrest : 2 ≤ rest.countP (fun r => validIn env r) := by omega
        simp only [he, hc, if_false]
        exact ih _ _ hrest

/-! Lemmas about the outer loop of `get_records`. -/

theorem getRecordsLoop_key_mem (env : Env) (L : List (FuncPath × List Record))
    (pr : FuncPath × Record)
    (h : pr ∈ (getRecordsLoop env L).1 ++ (getRecordsLoop env L).2.1) :
    pr.1 ∈ L.map Prod.fst := by
  induction L with
  | nil => simp [getRecordsLoop] at h
  | cons e rest ih =>
    simp only [getRecordsLoop] at h
    rcases hsel : (selectLoop env e.2 none none 0).2.1 with _ | r
    · rcases hdef : (selectLoop env e.2 none none 0).1 with _ | dft
      · rw [hsel, hdef] at h
        simp only [List.map_cons]
        exact List.mem_cons_of_mem _ (ih h)
      · rw [hsel, hdef] at h
        rcases List.mem_append.mp h with h1 | h1
        · rcases List.mem_cons.mp h1 with h2 | h2
          · subst h2
            simp
          · exact List.mem_cons_of_mem _ (ih (List.mem_append.mpr (Or.inl h2)))
        · exact List.mem_cons_of_mem _ (ih (List.mem_append.mpr (Or.inr h1)))
    · rw [hsel] at h
      rcases List.mem_append.mp h with h1 | h1
      · exact List.mem_cons_of_mem _ (ih (List.mem_append.mpr (Or.inl h1)))
      · rcases List.mem_cons.mp h1 with h2 | h2
        · subst h2
          simp
        · exact List.mem_cons_of_mem _ (ih (List.mem_append.mpr (Or.inr h2)))

theorem getRecordsLoop_keys_nodup (env : Env) (L : List (FuncPath × List Record))
    (hnd : (L.map Prod.fst).Nodup) :
    (((getRecordsLoop env L).1 ++ (getRecordsLoop env L).2.1).map Prod.fst).Nodup := by
  induction L with
  | nil => simp [getRecordsLoop]
  | cons e rest ih =>
    simp only [List.map_cons, List.nodup_cons] at hnd
    have hnotin : ∀ pr : FuncPath × Record,
        pr ∈ (getRecordsLoop env rest).1 ++ (getRecordsLoop env rest).2.1 →
        pr.1 ≠ e.1 := by
      intro pr hpr heq
      exact hnd.1 (heq ▸ getRecordsLoop_key_mem env rest pr hpr)
    have ihr := ih hnd.2
    simp only [getRecordsLoop]
    rcases hsel : (selectLoop env e.2 none none 0).2.1 with _ | r
    · rcases hdef : (selectLoop env e.2 none none 0).1 with _ | dft
      · dsimp only
        exact ihr
      · dsimp only
        rw [List.cons_append, List.map_cons, List.nodup_cons]
        constructor
        · intro hmem
          rw [List.map_append] at hmem
          rcases List.mem_append.mp hmem with h1 | h1
          · obtain ⟨pr, hpr, hpr1⟩ := List.mem_map.mp h1
            exact hnotin pr (List.mem_append.mpr (Or.inl hpr)) hpr1
          · obtain ⟨pr, hpr, hpr1⟩ := List.mem_map.mp h1
            exact hnotin pr (List.mem_append.mpr (Or.inr hpr)) hpr1
        · exact ihr
    · dsimp only
      have : (((getRecordsLoop env rest).1 ++ (e.1, r) :: (getRecordsLoop env rest).2.1).map
          Prod.fst).Nodup := by
        rw [List.map_append, List.map_cons]
        rw [List.nodup_middle]
        simp only [List.nodup_cons]
        constructor
        · intro hmem
          rw [← List.map_append] at hmem
          obtain ⟨pr, hpr, hpr1⟩ := List.mem_map.mp hmem
          exact hnotin pr hpr hpr1
        · rw [← List.map_append]
          exact ihr
      exact this

theorem getRecordsLoop_mem_final (env : Env) (L : List (FuncPath × List Record))
    (p : FuncPath) (recs : List Record) (r : Record)
    (hm : (p, recs) ∈ L)
    (hf : (selectLoop env recs none none 0).2.1 = some r) :
    (p, r) ∈ (getRecordsLoop env L).2.1 := by
  induction L with
  | nil => simp at hm
  | cons e rest ih =>
    rcases List.mem_cons.mp hm with h1 | h1
    · simp only [getRecordsLoop, ← h1, hf]
      exact List.mem_cons_self _ _
    · have hr := ih h1
      simp only [getRecordsLoop]
      rcases hsel : (selectLoop env e.2 none none 0).2.1 with _ | r'
      · rcases hdef : (selectLoop env e.2 none none 0).1 with _ | dft
        · exact hr
        · exact hr
      · exact List.mem_cons_of_mem _ hr

theorem getRecordsLoop_warn_le (env : Env) (L : List (FuncPath × List Record))
    (p : FuncPath) (recs : List Record) (hm : (p, recs) ∈ L) :
    (selectLoop env recs none none 0).2.2 ≤ (getRecordsLoop env L).2.2 := by
  induction L with
  | nil => simp at hm
  | cons e rest ih =>
    have hsplit : (getRecordsLoop env (e :: rest)).2.2 =
        (selectLoop env e.2 none none 0).2.2 + (getRecordsLoop env rest).2.2 := by
      simp only [getRecordsLoop]
      rcases hsel : (selectLoop env e.2 none none 0).2.1 with _ | r'
      · rcases hdef : (selectLoop env e.2 none none 0).1 with _ | dft <;> rfl
      · rfl
    rcases List.mem_cons.mp hm with h1 | h1
    · rw [hsplit]
      have : (p, recs).2 = e.2 := by rw [h1]
      simp only [← this]
      exact Nat.le_add_right _ _
    · rw [hsplit]
      exact Nat.le_trans (ih h1) (Nat.le_add_left _ _)

theorem getRecordsLoop_defaults_prop (env : Env) (L : List (FuncPath × List Record))
    (pr : FuncPath × Record) (h : pr ∈ (getRecordsLoop env L).1) :
    pr.2.checkers = [] := by
  induction L with
  | nil => simp [getRecordsLoop] at h
  | cons e rest ih =>
    simp only [getRecordsLoop] at h
    rcases hsel : (selectLoop env e.2 none none 0).2.1 with _ | r
    · rcases hdef : (selectLoop env e.2 none none 0).1 with _ | dft
      · rw [hsel, hdef] at h
        exact ih h
      · rw [hsel, hdef] at h
        rcases List.mem_cons.mp h with h1 | h1
        · have hfind : e.2.find? (fun r => r.checkers.isEmpty) = some dft := by
            rw [← selectLoop_default_none env e.2 none 0]
            exact hdef
          have := List.find?_some hfind
          rw [h1]
          exact List.isEmpty_iff.mp this
        · exact ih h1
    · rw [hsel] at h
      exact ih h

theorem getRecordsLoop_records_prop (env : Env) (L : List (FuncPath × List Record))
    (pr : FuncPath × Record) (h : pr ∈ (getRecordsLoop env L).2.1) :
    validIn env pr.2 = true := by
  induction L with
  | nil => simp [getRecordsLoop] at h
  | cons e rest ih =>
    simp only [getRecordsLoop] at h
    rcases hsel : (selectLoop env e.2 none none 0).2.1 with _ | r
    · rcases hdef : (selectLoop env e.2 none none 0).1 with _ | dft
      · rw [hsel, hdef] at h
        exact ih h
      · rw [hsel, hdef] at h
        exact ih h
    · rw [hsel] at h
      rcases List.mem_cons.mp h with h1 | h1
      · have hfind : e.2.find? (validIn env) = some r := by
          rw [← selectLoop_final_none env e.2 none 0]
          exact hsel
        have := List.find?_some hfind
        rw [h1]
        exact this
      · exact ih h1

theorem validIn_checkers_ne_nil {env : Env} {r : Record} (h : validIn env r = true) :
    r.checkers ≠ [] := by
  intro hnil
  simp [validIn, hnil] at h

theorem validIn_all_check {env : Env} {r : Record} (h : validIn env r = true) :
    r.checkers.all (fun c => c.check env) = true := by
  simp [validIn] at h
  rw [List.all_eq_true]
  exact h.2

/-- C2: for every registry with distinct path keys and every environment,
resolution yields at most one `(function_path, record)` pair per path: the
paths of the resolved list (default part followed by non-default part) are
pairwise distinct. -/
theorem c2_get_records_at_most_one_per_path (reg : RewriterRegistry) (env : Env)
    (hnd : (reg.rewrite_records.map Prod.fst).Nodup) :
    (((reg.get_records env).1).map Prod.fst).Nodup :=
  getRecordsLoop_keys_nodup env reg.rewrite_records hnd

theorem c2_get_records_at_most_one_per_path_witness :
    ((⟨[(⟨"torch", "add"⟩, [⟨[], ⟨0, "rw.add"⟩⟩]),
        (⟨"torch", "mul"⟩, [⟨[Checker.backend "tensorrt"], ⟨1, "rw.mul"⟩⟩])]⟩ :
      RewriterRegistry).rewrite_records.map Prod.fst).Nodup ∧
    (((⟨[(⟨"torch", "add"⟩, [⟨[], ⟨0, "rw.add"⟩⟩]),
        (⟨"torch", "mul"⟩, [⟨[Checker.backend "tensorrt"], ⟨1, "rw.mul"⟩⟩])]⟩ :
      RewriterRegistry).get_records ⟨"tensorrt", "onnx", fun _ => none⟩).1.map
        Prod.fst).Nodup :=
  ⟨by decide,
   c2_get_records_at_most_one_per_path _ ⟨"tensorrt", "onnx", fun _ => none⟩ (by decide)⟩

/-- C3: when a path has both a default (checker-free) candidate and a
checker-bearing candidate whose checkers all pass in the environment, the
resolved list contains exactly one entry for that path and its record is
checker-bearing (with all checkers passing), not the default. -/
theorem c3_checker_candidate_beats_default (reg : RewriterRegistry) (env : Env)
    (p : FuncPath) (recs : List Record) (rdef rc : Record)
    (hnd : (reg.rewrite_records.map Prod.fst).Nodup)
    (hm : (p, recs) ∈ reg.rewrite_records)
    (hdef : rdef ∈ recs) (hdefck : rdef.checkers = [])
    (hc : rc ∈ recs) (hcne : rc.checkers ≠ [])
    (hcall : rc.checkers.all (fun c => c.check env) = true) :
    ∃ r, (p, r) ∈ (reg.get_records env).1 ∧ r.checkers ≠ [] ∧
      r.checkers.all (fun c => c.check env) = true ∧
      ((reg.get_records env).1.map Prod.fst).count p = 1 := by
  have hvalid : validIn env rc = true := by
    simp [validIn, hcall, hcne]
  have hfs : (recs.find? (validIn env)).isSome := by
    rw [List.find?_isSome]
    exact ⟨rc, hc, hvalid⟩
  obtain ⟨r', hr'⟩ := Option.isSome_iff_exists.mp hfs
  have hsel : (selectLoop env recs none none 0).2.1 = some r' := by
    rw [selectLoop_final_none]
    exact hr'
  have hmem := getRecordsLoop_mem_final env reg.rewrite_records p recs r' hm hsel
  have hout : (p, r') ∈ (reg.get_records env).1 :=
    List.mem_append.mpr (Or.inr hmem)
  have hv' : validIn env r' = true := List.find?_some hr'
  refine ⟨r', hout, validIn_checkers_ne_nil hv', validIn_all_check hv', ?_⟩
  exact List.count_eq_one_of_mem (c2_get_records_at_most_one_per_path reg env hnd)
    (List.mem_map_of_mem Prod.fst hout)

/-- Concrete registry for the C3 witness: one path with a default candidate
and a backend-checked candidate. -/
def c3recs : List Record :=
  [⟨[], ⟨0, "rw.dflt"⟩⟩, ⟨[Checker.backend "tensorrt"], ⟨1, "rw.trt"⟩⟩]

theorem c3_checker_candidate_beats_default_witness :
    ∃ r, ((⟨"torch", "add"⟩ : FuncPath), r) ∈
        ((⟨[(⟨"torch", "add"⟩, c3recs)]⟩ : RewriterRegistry).get_records
          ⟨"tensorrt", "onnx", fun _ => none⟩).1 ∧
      r.checkers ≠ [] ∧
      r.checkers.all (fun c => c.check ⟨"tensorrt", "onnx", fun _ => none⟩) = true ∧
      (((⟨[(⟨"torch", "add"⟩, c3recs)]⟩ : RewriterRegistry).get_records
          ⟨"tensorrt", "onnx", fun _ => none⟩).1.map Prod.fst).count ⟨"torch", "add"⟩ = 1 :=
  c3_checker_candidate_beats_default ⟨[(⟨"torch", "add"⟩, c3recs)]⟩
    ⟨"tensorrt", "onnx", fun _ => none⟩ ⟨"torch", "add"⟩ c3recs
    ⟨[], ⟨0, "rw.dflt"⟩⟩ ⟨[Checker.backend "tensorrt"], ⟨1, "rw.trt"⟩⟩
    (by decide) (by decide) (by decide) (by decide) (by decide) (by decide) (by decide)

/-- C4: when two or more non-default candidates of one path are valid in
the environment, resolution yields exactly one entry for that path, that
entry is the first-registered valid candidate (the first hit of `find?`),
and at least one warning is emitted; the resolution function is total, so
no error is raised. -/
theorem c4_multiple_valid_first_wins_with_warning (reg : RewriterRegistry) (env : Env)
    (p : FuncPath) (recs : List Record)
    (hnd : (reg.rewrite_records.map Prod.fst).Nodup)
    (hm : (p, recs) ∈ reg.rewrite_records)
    (h2 : 2 ≤ recs.countP (fun r => validIn env r)) :
    ∃ r, recs.find? (validIn env) = some r ∧ (p, r) ∈ (reg.get_records env).1 ∧
      ((reg.get_records env).1.map Prod.fst).count p = 1 ∧
      1 ≤ (reg.get_records env).2 := by
  have hpos : 0 < recs.countP (fun r => validIn env r) := by omega
  obtain ⟨rc, hc, hcv⟩ := List.countP_pos_iff.mp hpos
  have hfs : (recs.find? (validIn env)).isSome := by
    rw [List.find?_isSome]
    exact ⟨rc, hc, hcv⟩
  obtain ⟨r', hr'⟩ := Option.isSome_iff_exists.mp hfs
  have hsel : (selectLoop env recs none none 0).2.1 = some r' := by
    rw [selectLoop_final_none]
    exact hr'
  have hmem := getRecordsLoop_mem_final env reg.rewrite_records p recs r' hm hsel
  have hout : (p, r') ∈ (reg.get_records env).1 :=
    List.mem_append.mpr (Or.inr hmem)
  refine ⟨r', hr', hout, ?_, ?_⟩
  · exact List.count_eq_one_of_mem (c2_get_records_at_most_one_per_path reg env hnd)
      (List.mem_map_of_mem Prod.fst hout)
  · have hw : 0 + 1 ≤ (selectLoop env recs none none 0).2.2 :=
      selectLoop_warn_of_two_valid env recs none 0 h2
    have hle := getRecordsLoop_warn_le env reg.rewrite_records p recs hm
    have : (reg.get_records env).2 = (getRecordsLoop env reg.rewrite_records).2.2 := rfl
    omega

/-- Concrete registry for the C4 witness: one path with two valid
backend-checked candidates. -/
def c4recs : List Record :=
  [⟨[Checker.backend "tensorrt"], ⟨0, "rw.a"⟩⟩, ⟨[Checker.backend "tensorrt"], ⟨1, "rw.b"⟩⟩]

theorem c4_multiple_valid_first_wins_with_warning_witness :
    ∃ r, c4recs.find? (validIn ⟨"tensorrt", "onnx", fun _ => none⟩) = some r ∧
      ((⟨"torch", "size"⟩ : FuncPath), r) ∈
        ((⟨[(⟨"torch", "size"⟩, c4recs)]⟩ : RewriterRegistry).get_records
          ⟨"tensorrt", "onnx", fun _ => none⟩).1 ∧
      (((⟨[(⟨"torch", "size"⟩, c4recs)]⟩ : RewriterRegistry).get_records
          ⟨"tensorrt", "onnx", fun _ => none⟩).1.map Prod.fst).count ⟨"torch", "size"⟩ = 1 ∧
      1 ≤ ((⟨[(⟨"torch", "size"⟩, c4recs)]⟩ : RewriterRegistry).get_records
          ⟨"tensorrt", "onnx", fun _ => none⟩).2 :=
  c4_multiple_valid_first_wins_with_warning ⟨[(⟨"torch", "size"⟩, c4recs)]⟩
    ⟨"tensorrt", "onnx", fun _ => none⟩ ⟨"torch", "size"⟩ c4recs
    (by decide) (by decide) (by decide)

/-- C9: the resolved sequence is the list of default-resolved entries
(checker-free records) followed by the list of non-default-resolved entries
(records with a non-empty checker list), so every default-resolved entry
precedes every non-default-resolved one. -/
theorem c9_defaults_before_non_defaults (reg : RewriterRegistry) (env : Env) :
    ∃ ds rs, (reg.get_records env).1 = ds ++ rs ∧
      (∀ pr ∈ ds, pr.2.checkers = []) ∧ (∀ pr ∈ rs, pr.2.checkers ≠ []) := by
  refine ⟨(getRecordsLoop env reg.rewrite_records).1,
    (getRecordsLoop env reg.rewrite_records).2.1, rfl, ?_, ?_⟩
  · intro pr hpr
    exact getRecordsLoop_defaults_prop env reg.rewrite_records pr hpr
  · intro pr hpr
    exact validIn_checkers_ne_nil (getRecordsLoop_records_prop env reg.rewrite_records pr hpr)

/-- C5: the `LibVersionChecker` with library `foo` and bounds `1.8.0` and
`1.10.0` passes for reported version `1.9.0`, fails for `1.11.0` and for
`1.7.9`, and fails rather than erroring when `foo` is reported absent
(`env[lib] is None`). -/
theorem c5_version_range_checker :
    Checker.check (Checker.libVersion "foo" (some "1.8.0") (some "1.10.0"))
        ⟨"tensorrt", "onnx", fun l => if l = "foo" then some "1.9.0" else none⟩ = true ∧
    Checker.check (Checker.libVersion "foo" (some "1.8.0") (some "1.10.0"))
        ⟨"tensorrt", "onnx", fun l => if l = "foo" then some "1.11.0" else none⟩ = false ∧
    Checker.check (Checker.libVersion "foo" (some "1.8.0") (some "1.10.0"))
        ⟨"tensorrt", "onnx", fun l => if l = "foo" then some "1.7.9" else none⟩ = false ∧
    Checker.check (Checker.libVersion "foo" (some "1.8.0") (some "1.10.0"))
        ⟨"tensorrt", "onnx", fun _ => none⟩ = false := by
  refine ⟨?_, ?_, ?_, ?_⟩ <;> decide

/-! Lemmas for `remove_record`. -/

theorem mem_eraseKeyTable (table : List (FuncPath × List Record)) (k : FuncPath)
    (kv : FuncPath × List Record) (h : kv ∈ eraseKeyTable table k) : kv ∈ table := by
  induction table with
  | nil => simpa [eraseKeyTable] using h
  | cons e rest ih =>
    simp only [eraseKeyTable] at h
    by_cases he : e.1 = k
    · rw [if_pos he] at h
      exact List.mem_cons_of_mem _ h
    · rw [if_neg he] at h
      rcases List.mem_cons.mp h with h1 | h1
      · exact h1 ▸ List.mem_cons_self _ _
      · exact List.mem_cons_of_mem _ (ih h1)

theorem mem_setKeyTable (table : List (FuncPath × List Record)) (k : FuncPath)
    (l : List Record) (kv : FuncPath × List Record) (h : kv ∈ setKeyTable table k l) :
    kv.2 = l ∨ kv ∈ table := by
  induction table with
  | nil => simp [setKeyTable] at h
  | cons e rest ih =>
    simp only [setKeyTable] at h
    by_cases he : e.1 = k
    · rw [if_pos he] at h
      rcases List.mem_cons.mp h with h1 | h1
      · exact Or.inl (by rw [h1])
      · exact Or.inr (List.mem_cons_of_mem _ h1)
    · rw [if_neg he] at h
      rcases List.mem_cons.mp h with h1 | h1
      · exact Or.inr (h1 ▸ List.mem_cons_self _ _)
      · rcases ih h1 with h2 | h2
        · exact Or.inl h2
        · exact Or.inr (List.mem_cons_of_mem _ h2)

theorem removeOne_no_empty (table : List (FuncPath × List Record))
    (kr : FuncPath × Record) (hinv : ∀ kv ∈ table, kv.2 ≠ []) :
    ∀ kv ∈ removeOne table kr, kv.2 ≠ [] := by
  intro kv hkv
  simp only [removeOne] at hkv
  rcases hlk : List.lookup kr.1 table with _ | records
  · rw [hlk] at hkv
    exact hinv kv hkv
  · simp only [hlk] at hkv
    by_cases hemp : (records.erase kr.2).isEmpty
    · rw [if_pos hemp] at hkv
      exact hinv kv (mem_eraseKeyTable table kr.1 kv hkv)
    · rw [if_neg hemp] at hkv
      rcases mem_setKeyTable table kr.1 (records.erase kr.2) kv hkv with h1 | h1
      · rw [h1]
        intro hnil
        rw [hnil] at hemp
        exact hemp rfl
      · exact hinv kv h1

theorem foldl_removeOne_no_empty (L : List (FuncPath × Record))
    (table : List (FuncPath × List Record)) (hinv : ∀ kv ∈ table, kv.2 ≠ []) :
    ∀ kv ∈ L.foldl removeOne table, kv.2 ≠ [] := by
  induction L generalizing table with
  | nil => exact hinv
  | cons kr rest ih =>
    exact ih (removeOne table kr) (removeOne_no_empty table kr hinv)

/-- C10: `remove_record` preserves the invariant that every path present in
the registry table maps to a non-empty candidate list; a path whose last
record is removed is popped from the table rather than left mapping to an
empty list. -/
theorem c10_remove_record_no_empty_lists (reg : RewriterRegistry) (object : Func)
    (filter_cb : Option (Record → Bool))
    (hinv : ∀ kv ∈ reg.rewrite_records, kv.2 ≠ []) :
    ∀ kv ∈ (reg.remove_record object filter_cb).rewrite_records, kv.2 ≠ [] := by
  exact foldl_removeOne_no_empty _ reg.rewrite_records hinv

theorem c10_remove_record_no_empty_lists_witness :
    (∀ kv ∈ (⟨[(⟨"torch", "add"⟩, [⟨[], ⟨0, "rw.add"⟩⟩]),
        (⟨"torch", "mul"⟩, [⟨[], ⟨0, "rw.add"⟩⟩, ⟨[], ⟨1, "rw.mul"⟩⟩])]⟩ :
      RewriterRegistry).rewrite_records, kv.2 ≠ []) ∧
    (∀ kv ∈ ((⟨[(⟨"torch", "add"⟩, [⟨[], ⟨0, "rw.add"⟩⟩]),
        (⟨"torch", "mul"⟩, [⟨[], ⟨0, "rw.add"⟩⟩, ⟨[], ⟨1, "rw.mul"⟩⟩])]⟩ :
      RewriterRegistry).remove_record ⟨0, "rw.add"⟩ none).rewrite_records, kv.2 ≠ []) :=
  ⟨by decide,
   c10_remove_record_no_empty_lists _ ⟨0, "rw.add"⟩ none (by decide)⟩

/-! Claims C6 and C7: `get_context` and `exit` on an inactive rewriter. -/

theorem foldl_ctx_no_match (f : Func) (l : List ContextCaller)
    (acc : Option ContextCaller) (h : ∀ t ∈ l, t.func ≠ f) :
    l.foldl (fun acc t => if t.func = f then some t else acc) acc = acc := by
  induction l generalizing acc with
  | nil => rfl
  | cons t rest ih =>
    have ht : t.func ≠ f := h t (List.mem_cons_self _ _)
    simp only [List.foldl_cons, if_neg ht]
    exact ih acc (fun t' ht' => h t' (List.mem_cons_of_mem _ ht'))

/-- C6 counterexample: with `key` omitted and the derived qualified name
mapping to zero ContextCallers, `get_context` does not fail an assertion:
it takes the frame-matching branch, finds no match, logs a warning and
returns `None` (`some none` in the model, not the assertion failure `none`
that the claim predicts).  The `assert len(ctxs) == 1` branch of the source
runs only when `key` is supplied. -/
theorem c6_get_context_key_omitted_counterexample :
    FunctionRewriter.get_context [] none ⟨0, "pkg.mod.f"⟩ "pkg.mod.f" = some none ∧
    FunctionRewriter.get_context [] none ⟨0, "pkg.mod.f"⟩ "pkg.mod.f" ≠ none :=
  ⟨rfl, by decide⟩

/-- C6 amended: the two behaviours are swapped with respect to the claim.
When `key` is supplied and the key maps to a number of ContextCallers
different from one, `get_context` fails its assertion (`assert
len(ctxs) == 1`, modelled by `none`); when `key` is omitted, the caller is
identified from the stack frame and if no registered ContextCaller wraps
the calling function, a warning is logged and `None` is returned. -/
theorem c6_get_context_lookup_failure_amended
    (contexts : List (String × List ContextCaller)) (k : String)
    (frame_func : Func) (frame_qual : String) :
    ((((List.lookup k contexts).getD []).length ≠ 1) →
      FunctionRewriter.get_context contexts (some k) frame_func frame_qual = none) ∧
    ((∀ t ∈ (List.lookup frame_qual contexts).getD [], t.func ≠ frame_func) →
      FunctionRewriter.get_context contexts none frame_func frame_qual = some none) := by
  constructor
  · intro hlen
    simp only [FunctionRewriter.get_context]
    rcases hctxs : (List.lookup k contexts).getD [] with _ | ⟨c1, _ | ⟨c2, t⟩⟩
    · rfl
    · rw [hctxs] at hlen
      simp at hlen
    · rfl
  · intro hnom
    simp only [FunctionRewriter.get_context]
    rw [foldl_ctx_no_match frame_func _ none hnom]

theorem c6_get_context_lookup_failure_amended_witness :
    FunctionRewriter.get_context [("pkg.mod.f", [])] (some "pkg.mod.f")
      ⟨0, "pkg.mod.g"⟩ "pkg.mod.g" = none ∧
    FunctionRewriter.get_context [("pkg.mod.f", [⟨⟨5, "pkg.mod.f"⟩, none⟩])] none
      ⟨0, "pkg.mod.g"⟩ "pkg.mod.f" = some none :=
  ⟨(c6_get_context_lookup_failure_amended [("pkg.mod.f", [])] "pkg.mod.f"
      ⟨0, "pkg.mod.g"⟩ "pkg.mod.g").1 (by decide),
   (c6_get_context_lookup_failure_amended [("pkg.mod.f", [⟨⟨5, "pkg.mod.f"⟩, none⟩])]
      "pkg.mod.f" ⟨0, "pkg.mod.g"⟩ "pkg.mod.f").2 (by decide)⟩

/-- C7 counterexample: calling `exit` on a freshly constructed rewriter (no
preceding `enter`) is not a warning no-op: the very first statement reads
`self._ori_fx_wrap_num`, an attribute that only `enter` assigns, so the
call raises `AttributeError` (modelled by the `none` result) instead of
returning with the state unchanged. -/
theorem c7_exit_inactive_counterexample :
    FunctionRewriter.exit
      (FunctionRewriter.init ⟨fun _ => none, fun _ => none, 1⟩ [] 0) = none := rfl

/-- C7 amended: on every inactive rewriter (fresh from `__init__`, whatever
the live graph and allowlist), `exit` raises an `AttributeError` while
reading the unset session bookkeeping; it is not a no-op and it emits no
warning. -/
theorem c7_exit_inactive_raises (g : LiveGraph) (fx : List Func) (nid : Nat) :
    FunctionRewriter.exit (FunctionRewriter.init g fx nid) = none := rfl

/-! Algebra of `writePath` and `del_func` on the live graph, used for the
enter/exit round-trip claims. -/

theorem classDefExt (a b : ClassDef) (h1 : a.own = b.own) (h2 : a.base = b.base) :
    a = b := by
  cases a
  cases b
  cases h1
  cases h2
  rfl

theorem liveGraphExt (g g' : LiveGraph) (h1 : g.classes = g'.classes)
    (h2 : g.moduleAttrs = g'.moduleAttrs) (h3 : g.mroFuel = g'.mroFuel) : g = g' := by
  cases g
  cases g'
  cases h1
  cases h2
  cases h3
  rfl

theorem writePath_class_def (g : LiveGraph) (pf : FuncPath × Func) (cd : ClassDef)
    (h : g.classes pf.1.parent = some cd) :
    writePath g pf = { g with classes := fun c =>
                         if c = pf.1.parent then
                           some ⟨fun n => if n = pf.1.name then some pf.2 else cd.own n,
                             cd.base⟩
                         else g.classes c } := by
  simp only [writePath, h]

theorem writePath_mod_def (g : LiveGraph) (pf : FuncPath × Func)
    (h : g.classes pf.1.parent = none) :
    writePath g pf = { g with moduleAttrs := fun q =>
                         if q = pf.1 then some pf.2 else g.moduleAttrs q } := by
  simp only [writePath, h]

theorem writePath_classes_isSome (g : LiveGraph) (pf : FuncPath × Func) (c : String) :
    ((writePath g pf).classes c).isSome = (g.classes c).isSome := by
  rcases h : g.classes pf.1.parent with _ | cd
  · rw [writePath_mod_def g pf h]
  · rw [writePath_class_def g pf cd h]
    by_cases hc : c = pf.1.parent
    · simp [hc, h]
    · simp only [if_neg hc]

theorem writePath_mroFuel (g : LiveGraph) (pf : FuncPath × Func) :
    (writePath g pf).mroFuel = g.mroFuel := by
  rcases h : g.classes pf.1.parent with _ | cd
  · rw [writePath_mod_def g pf h]
  · rw [writePath_class_def g pf cd h]

theorem del_func_class_some_def (g : LiveGraph) (p : FuncPath) (cd : ClassDef) (v : Func)
    (h : g.classes p.parent = some cd) (hown : cd.own p.name = some v) :
    del_func g p = { g with classes := fun c =>
                       if c = p.parent then
                         some ⟨fun n => if n = p.name then none else cd.own n, cd.base⟩
                       else g.classes c } := by
  simp only [del_func, h, hown]

theorem del_func_class_none_def (g : LiveGraph) (p : FuncPath) (cd : ClassDef)
    (h : g.classes p.parent = some cd) (hown : cd.own p.name = none) :
    del_func g p = g := by
  simp only [del_func, h, hown]

theorem del_func_mod_some_def (g : LiveGraph) (p : FuncPath) (v : Func)
    (h : g.classes p.parent = none) (hattr : g.moduleAttrs p = some v) :
    del_func g p = { g with moduleAttrs := fun q =>
                       if q = p then none else g.moduleAttrs q } := by
  simp only [del_func, h, hattr]

theorem del_func_mod_none_def (g : LiveGraph) (p : FuncPath)
    (h : g.classes p.parent = none) (hattr : g.moduleAttrs p = none) :
    del_func g p = g := by
  simp only [del_func, h, hattr]

/-- Update (or clear, with `none`) one own-dictionary entry of a class; a
no-op when the class does not exist.  Both `writePath` and `del_func`
reduce to this on class-attribute paths. -/
def setOwnCell (g : LiveGraph) (P N : String) (v : Option Func) : LiveGraph :=
  match g.classes P with
  | some cd =>
    { g with classes := fun c =>
        if c = P then some ⟨fun n => if n = N then v else cd.own n, cd.base⟩
        else g.classes c }
  | none => g

/-- Update (or clear, with `none`) one module attribute.  Both `writePath`
and `del_func` reduce to this on module-attribute paths. -/
def setModCell (g : LiveGraph) (q : FuncPath) (v : Option Func) : LiveGraph :=
  { g with moduleAttrs := fun x => if x = q then v else g.moduleAttrs x }

theorem setModCell_classes (g : LiveGraph) (q : FuncPath) (v : Option Func) :
    (setModCell g q v).classes = g.classes := rfl

theorem setModCell_mroFuel (g : LiveGraph) (q : FuncPath) (v : Option Func) :
    (setModCell g q v).mroFuel = g.mroFuel := rfl

theorem setOwnCell_moduleAttrs (g : LiveGraph) (P N : String) (v : Option Func) :
    (setOwnCell g P N v).moduleAttrs = g.moduleAttrs := by
  rcases h : g.classes P with _ | cd <;> simp only [setOwnCell, h]

theorem setOwnCell_mroFuel (g : LiveGraph) (P N : String) (v : Option Func) :
    (setOwnCell g P N v).mroFuel = g.mroFuel := by
  rcases h : g.classes P with _ | cd <;> simp only [setOwnCell, h]

theorem setOwnCell_classes_isSome (g : LiveGraph) (P N : String) (v : Option Func)
    (c : String) : ((setOwnCell g P N v).classes c).isSome = (g.classes c).isSome := by
  rcases h : g.classes P with _ | cd
  · simp only [setOwnCell, h]
  · simp only [setOwnCell, h]
    by_cases hc : c = P
    · simp [hc, h]
    · simp only [if_neg hc]

theorem setOwnCell_classes_none (g : LiveGraph) (P N : String) (v : Option Func)
    (c : String) (h : g.classes c = none) : (setOwnCell g P N v).classes c = none := by
  rcases hp : g.classes P with _ | cd
  · simp only [setOwnCell, hp, h]
  · simp only [setOwnCell, hp]
    by_cases hc : c = P
    · rw [hc, hp] at h
      cases h
    · simp only [if_neg hc, h]

theorem setOwnCell_some_def (g : LiveGraph) (P N : String) (v : Option Func)
    (cd : ClassDef) (h : g.classes P = some cd) :
    setOwnCell g P N v = { g with classes := fun c =>
                             if c = P then
                               some ⟨fun n => if n = N then v else cd.own n, cd.base⟩
                             else g.classes c } := by
  simp only [setOwnCell, h]

theorem setOwnCell_none_def (g : LiveGraph) (P N : String) (v : Option Func)
    (h : g.classes P = none) : setOwnCell g P N v = g := by
  simp only [setOwnCell, h]

theorem setOwnCell_noop (g : LiveGraph) (P N : String) (v : Option Func) (cd : ClassDef)
    (h : g.classes P = some cd) (hv : cd.own N = v) : setOwnCell g P N v = g := by
  rw [setOwnCell_some_def g P N v cd h]
  refine liveGraphExt _ _ ?_ rfl rfl
  funext c
  dsimp only
  by_cases hc : c = P
  · subst hc
    rw [if_pos rfl, h]
    congr 1
    refine classDefExt _ _ ?_ rfl
    funext n
    dsimp only
    by_cases hn : n = N
    · subst hn
      rw [if_pos rfl, hv]
    · rw [if_neg hn]
  · rw [if_neg hc]

theorem setModCell_noop (g : LiveGraph) (q : FuncPath) (v : Option Func)
    (hv : g.moduleAttrs q = v) : setModCell g q v = g := by
  refine liveGraphExt _ _ rfl ?_ rfl
  funext x
  by_cases hx : x = q
  · simp [setModCell, hx, ← hv]
  · simp [setModCell, hx]

theorem setOwnCell_same (g : LiveGraph) (P N : String) (v1 v2 : Option Func) :
    setOwnCell (setOwnCell g P N v1) P N v2 = setOwnCell g P N v2 := by
  rcases h : g.classes P with _ | cd
  · rw [setOwnCell_none_def g P N v1 h]
  · have h1 : (setOwnCell g P N v1).classes P =
        some ⟨fun n => if n = N then v1 else cd.own n, cd.base⟩ := by
      rw [setOwnCell_some_def g P N v1 cd h]
      simp
    rw [setOwnCell_some_def _ P N v2 _ h1, setOwnCell_some_def g P N v1 cd h,
      setOwnCell_some_def g P N v2 cd h]
    refine liveGraphExt _ _ ?_ rfl rfl
    funext c
    dsimp only
    by_cases hc : c = P
    · subst hc
      rw [if_pos rfl, if_pos rfl]
      congr 1
      refine classDefExt _ _ ?_ rfl
      funext n
      dsimp only
      by_cases hn : n = N
      · subst hn
        rw [if_pos rfl, if_pos rfl]
      · rw [if_neg hn, if_neg hn, if_neg hn]
    · rw [if_neg hc, if_neg hc]
      rw [if_neg hc]

theorem setModCell_same (g : LiveGraph) (q : FuncPath) (v1 v2 : Option Func) :
    setModCell (setModCell g q v1) q v2 = setModCell g q v2 := by
  refine liveGraphExt _ _ rfl ?_ rfl
  funext x
  by_cases hx : x = q <;> simp [setModCell, hx]

theorem funcPathExt (a b : FuncPath) (h1 : a.parent = b.parent) (h2 : a.name = b.name) :
    a = b := by
  cases a
  cases b
  cases h1
  cases h2
  rfl

theorem opt_none_of_isSome_false {α : Type} {x : Option α} (h : x.isSome = false) :
    x = none := by
  cases x
  · rfl
  · simp at h

theorem setModCell_comm (g : LiveGraph) (q1 q2 : FuncPath) (v1 v2 : Option Func)
    (hne : q1 ≠ q2) :
    setModCell (setModCell g q1 v1) q2 v2 = setModCell (setModCell g q2 v2) q1 v1 := by
  refine liveGraphExt _ _ rfl ?_ rfl
  funext x
  dsimp only [setModCell]
  by_cases h2 : x = q2
  · by_cases h1 : x = q1
    · exact absurd (h1 ▸ h2) hne
    · rw [if_pos h2, if_neg h1, if_pos h2]
  · by_cases h1 : x = q1
    · rw [if_neg h2, if_pos h1, if_pos h1]
    · rw [if_neg h2, if_neg h1, if_neg h1, if_neg h2]

theorem setOwn_setMod_comm (g : LiveGraph) (P N : String) (v : Option Func)
    (q : FuncPath) (w : Option Func) :
    setModCell (setOwnCell g P N v) q w = setOwnCell (setModCell g q w) P N v := by
  rcases h : g.classes P with _ | cd
  · rw [setOwnCell_none_def g P N v h,
      setOwnCell_none_def (setModCell g q w) P N v (by rw [setModCell_classes]; exact h)]
  · rw [setOwnCell_some_def g P N v cd h,
      setOwnCell_some_def (setModCell g q w) P N v cd (by rw [setModCell_classes]; exact h)]
    rfl

theorem setOwnCell_comm (g : LiveGraph) (P1 N1 P2 N2 : String) (v1 v2 : Option Func)
    (hne : ¬(P1 = P2 ∧ N1 = N2)) :
    setOwnCell (setOwnCell g P1 N1 v1) P2 N2 v2 =
      setOwnCell (setOwnCell g P2 N2 v2) P1 N1 v1 := by
  rcases h1 : g.classes P1 with _ | cd1
  · rw [setOwnCell_none_def g P1 N1 v1 h1,
      setOwnCell_none_def (setOwnCell g P2 N2 v2) P1 N1 v1
        (setOwnCell_classes_none g P2 N2 v2 P1 h1)]
  · rcases h2 : g.classes P2 with _ | cd2
    · rw [setOwnCell_none_def g P2 N2 v2 h2,
        setOwnCell_none_def (setOwnCell g P1 N1 v1) P2 N2 v2
          (setOwnCell_classes_none g P1 N1 v1 P2 h2)]
    · by_cases hP : P1 = P2
      · subst hP
        have hcd : cd1 = cd2 := by
          rw [h1] at h2
          exact Option.some.inj h2
        subst hcd
        have hN : N1 ≠ N2 := fun hN => hne ⟨rfl, hN⟩
        have e1 : (setOwnCell g P1 N1 v1).classes P1 =
            some ⟨fun n => if n = N1 then v1 else cd1.own n, cd1.base⟩ := by
          rw [setOwnCell_some_def g P1 N1 v1 cd1 h1]
          simp
        have e2 : (setOwnCell g P1 N2 v2).classes P1 =
            some ⟨fun n => if n = N2 then v2 else cd1.own n, cd1.base⟩ := by
          rw [setOwnCell_some_def g P1 N2 v2 cd1 h1]
          simp
        rw [setOwnCell_some_def (setOwnCell g P1 N1 v1) P1 N2 v2 _ e1,
          setOwnCell_some_def (setOwnCell g P1 N2 v2) P1 N1 v1 _ e2,
          setOwnCell_some_def g P1 N1 v1 cd1 h1, setOwnCell_some_def g P1 N2 v2 cd1 h1]
        refine liveGraphExt _ _ ?_ rfl rfl
        funext c
        dsimp only
        by_cases hc : c = P1
        · rw [if_pos hc, if_pos hc]
          congr 1
          refine classDefExt _ _ ?_ rfl
          funext n
          dsimp only
          by_cases hn2 : n = N2
          · by_cases hn1 : n = N1
            · exact absurd (hn1 ▸ hn2) hN
            · simp [hn1, hn2, Ne.symm hN]
          · simp [hn2]
        · rw [if_neg hc, if_neg hc, if_neg hc, if_neg hc]
      · have e1 : (setOwnCell g P1 N1 v1).classes P2 = some cd2 := by
          rw [setOwnCell_some_def g P1 N1 v1 cd1 h1]
          simp only
          rw [if_neg (fun h => hP h.symm)]
          exact h2
        have e2 : (setOwnCell g P2 N2 v2).classes P1 = some cd1 := by
          rw [setOwnCell_some_def g P2 N2 v2 cd2 h2]
          simp only
          rw [if_neg hP]
          exact h1
        rw [setOwnCell_some_def (setOwnCell g P1 N1 v1) P2 N2 v2 cd2 e1,
          setOwnCell_some_def (setOwnCell g P2 N2 v2) P1 N1 v1 cd1 e2,
          setOwnCell_some_def g P1 N1 v1 cd1 h1, setOwnCell_some_def g P2 N2 v2 cd2 h2]
        refine liveGraphExt _ _ ?_ rfl rfl
        funext c
        dsimp only
        by_cases hc2 : c = P2
        · by_cases hc1 : c = P1
          · exact absurd (hc1 ▸ hc2) (fun h => hP h)
          · rw [if_pos hc2, if_neg hc1, if_pos hc2]
        · by_cases hc1 : c = P1
          · rw [if_neg hc2, if_pos hc1, if_pos hc1]
          · rw [if_neg hc2, if_neg hc1, if_neg hc1, if_neg hc2]

theorem writePath_eq_setOwnCell (g : LiveGraph) (pf : FuncPath × Func)
    (h : (g.classes pf.1.parent).isSome = true) :
    writePath g pf = setOwnCell g pf.1.parent pf.1.name (some pf.2) := by
  obtain ⟨cd, hcd⟩ := Option.isSome_iff_exists.mp h
  rw [writePath_class_def g pf cd hcd, setOwnCell_some_def g _ _ _ cd hcd]

theorem writePath_eq_setModCell (g : LiveGraph) (pf : FuncPath × Func)
    (h : g.classes pf.1.parent = none) :
    writePath g pf = setModCell g pf.1 (some pf.2) := by
  rw [writePath_mod_def g pf h]
  rfl

theorem del_func_eq_setOwnCell (g : LiveGraph) (p : FuncPath)
    (h : (g.classes p.parent).isSome = true) :
    del_func g p = setOwnCell g p.parent p.name none := by
  obtain ⟨cd, hcd⟩ := Option.isSome_iff_exists.mp h
  rcases hown : cd.own p.name with _ | v
  · rw [del_func_class_none_def g p cd hcd hown, setOwnCell_noop g _ _ none cd hcd hown]
  · rw [del_func_class_some_def g p cd v hcd hown, setOwnCell_some_def g _ _ none cd hcd]

theorem del_func_eq_setModCell (g : LiveGraph) (p : FuncPath)
    (h : g.classes p.parent = none) :
    del_func g p = setModCell g p none := by
  rcases hattr : g.moduleAttrs p with _ | v
  · rw [del_func_mod_none_def g p h hattr, setModCell_noop g p none hattr]
  · rw [del_func_mod_some_def g p v h hattr]
    rfl

theorem writePath_comm (g : LiveGraph) (pf1 pf2 : FuncPath × Func)
    (hne : pf1.1 ≠ pf2.1) :
    writePath (writePath g pf1) pf2 = writePath (writePath g pf2) pf1 := by
  rcases h1 : g.classes pf1.1.parent with _ | cd1
  · rcases h2 : g.classes pf2.1.parent with _ | cd2
    · rw [writePath_eq_setModCell g pf1 h1, writePath_eq_setModCell g pf2 h2,
        writePath_eq_setModCell _ pf2 (by rw [setModCell_classes]; exact h2),
        writePath_eq_setModCell _ pf1 (by rw [setModCell_classes]; exact h1),
        setModCell_comm g pf1.1 pf2.1 _ _ hne]
    · rw [writePath_eq_setModCell g pf1 h1,
        writePath_eq_setOwnCell g pf2 (by rw [h2]; rfl),
        writePath_eq_setOwnCell _ pf2 (by rw [setModCell_classes, h2]; rfl),
        writePath_eq_setModCell _ pf1 (setOwnCell_classes_none g _ _ _ _ h1)]
      exact (setOwn_setMod_comm g _ _ _ _ _).symm
  · rcases h2 : g.classes pf2.1.parent with _ | cd2
    · rw [writePath_eq_setOwnCell g pf1 (by rw [h1]; rfl),
        writePath_eq_setModCell g pf2 h2,
        writePath_eq_setModCell _ pf2 (setOwnCell_classes_none g _ _ _ _ h2),
        writePath_eq_setOwnCell _ pf1 (by rw [setModCell_classes, h1]; rfl)]
      exact setOwn_setMod_comm g _ _ _ _ _
    · rw [writePath_eq_setOwnCell g pf1 (by rw [h1]; rfl),
        writePath_eq_setOwnCell g pf2 (by rw [h2]; rfl),
        writePath_eq_setOwnCell _ pf2 (by rw [setOwnCell_classes_isSome, h2]; rfl),
        writePath_eq_setOwnCell _ pf1 (by rw [setOwnCell_classes_isSome, h1]; rfl)]
      exact setOwnCell_comm g _ _ _ _ _ _
        (fun hpn => hne (funcPathExt _ _ hpn.1 hpn.2))

theorem del_func_writePath_comm (g : LiveGraph) (pf : FuncPath × Func) (p : FuncPath)
    (hne : pf.1 ≠ p) :
    del_func (writePath g pf) p = writePath (del_func g p) pf := by
  rcases h1 : g.classes pf.1.parent with _ | cd1
  · rcases h2 : g.classes p.parent with _ | cd2
    · rw [writePath_eq_setModCell g pf h1,
        del_func_eq_setModCell _ p (by rw [setModCell_classes]; exact h2),
        del_func_eq_setModCell g p h2,
        writePath_eq_setModCell _ pf (by rw [setModCell_classes]; exact h1),
        setModCell_comm g pf.1 p _ _ hne]
    · rw [writePath_eq_setModCell g pf h1,
        del_func_eq_setOwnCell _ p (by rw [setModCell_classes, h2]; rfl),
        del_func_eq_setOwnCell g p (by rw [h2]; rfl),
        writePath_eq_setModCell _ pf (setOwnCell_classes_none g _ _ _ _ h1)]
      exact (setOwn_setMod_comm g _ _ _ _ _).symm
  · rcases h2 : g.classes p.parent with _ | cd2
    · rw [writePath_eq_setOwnCell g pf (by rw [h1]; rfl),
        del_func_eq_setModCell _ p (setOwnCell_classes_none g _ _ _ _ h2),
        del_func_eq_setModCell g p h2,
        writePath_eq_setOwnCell _ pf (by rw [setModCell_classes, h1]; rfl)]
      exact setOwn_setMod_comm g _ _ _ _ _
    · rw [writePath_eq_setOwnCell g pf (by rw [h1]; rfl),
        del_func_eq_setOwnCell _ p (by rw [setOwnCell_classes_isSome, h2]; rfl),
        del_func_eq_setOwnCell g p (by rw [h2]; rfl),
        writePath_eq_setOwnCell _ pf (by rw [setOwnCell_classes_isSome, h1]; rfl)]
      exact setOwnCell_comm g _ _ _ _ _ _
        (fun hpn => hne (funcPathExt _ _ hpn.1 hpn.2))

theorem foldl_writePath_comm (L : List (FuncPath × Func)) (g : LiveGraph)
    (p : FuncPath) (v : Func) (h : ∀ pf ∈ L, pf.1 ≠ p) :
    L.foldl writePath (writePath g (p, v)) = writePath (L.foldl writePath g) (p, v) := by
  induction L generalizing g with
  | nil => rfl
  | cons pf rest ih =>
    simp only [List.foldl_cons]
    rw [writePath_comm g (p, v) pf (fun e => (h pf (List.mem_cons_self _ _)) e.symm)]
    exact ih (writePath g pf) (fun pf' h' => h pf' (List.mem_cons_of_mem _ h'))

theorem foldl_del_writePath_comm (L : List (FuncPath × Func)) (g : LiveGraph)
    (p : FuncPath) (h : ∀ pf ∈ L, pf.1 ≠ p) :
    del_func (L.foldl writePath g) p = L.foldl writePath (del_func g p) := by
  induction L generalizing g with
  | nil => rfl
  | cons pf rest ih =>
    simp only [List.foldl_cons]
    rw [ih (writePath g pf) (fun pf' h' => h pf' (List.mem_cons_of_mem _ h')),
      del_func_writePath_comm g pf p (h pf (List.mem_cons_self _ _))]

theorem writePath_writePath_same (g : LiveGraph) (p : FuncPath) (v1 v2 : Func) :
    writePath (writePath g (p, v1)) (p, v2) = writePath g (p, v2) := by
  rcases h : g.classes p.parent with _ | cd
  · rw [writePath_eq_setModCell g (p, v1) h,
      writePath_eq_setModCell _ (p, v2) (by rw [setModCell_classes]; exact h),
      writePath_eq_setModCell g (p, v2) h, setModCell_same]
  · rw [writePath_eq_setOwnCell g (p, v1) (by rw [h]; rfl),
      writePath_eq_setOwnCell _ (p, v2) (by rw [setOwnCell_classes_isSome, h]; rfl),
      writePath_eq_setOwnCell g (p, v2) (by rw [h]; rfl), setOwnCell_same]

theorem classGetattr_own_some (g : LiveGraph) (fuel : Nat) (P N : String)
    (cd : ClassDef) (v : Func) (hf : 0 < fuel) (hcls : g.classes P = some cd)
    (hown : cd.own N = some v) : classGetattr g fuel P N = some v := by
  cases fuel with
  | zero => exact absurd hf (Nat.lt_irrefl 0)
  | succ fuel => simp [classGetattr, hcls, hown]

theorem pathEval_class_fuel_pos (g : LiveGraph) (p : FuncPath) (o : Func)
    (hcls : (g.classes p.parent).isSome = true) (h : pathEval g p = some o) :
    0 < g.mroFuel := by
  obtain ⟨cd, hcd⟩ := Option.isSome_iff_exists.mp hcls
  cases hf : g.mroFuel with
  | zero =>
    simp only [pathEval, hcd, hf, classGetattr] at h
    exact absurd h (by simp)
  | succ fuel => exact Nat.succ_pos fuel

theorem pathEval_class_eq (g : LiveGraph) (p : FuncPath) (cd : ClassDef)
    (hcd : g.classes p.parent = some cd) :
    pathEval g p = classGetattr g g.mroFuel p.parent p.name := by
  simp only [pathEval, hcd]

theorem pathEval_mod_eq (g : LiveGraph) (p : FuncPath)
    (hcd : g.classes p.parent = none) : pathEval g p = g.moduleAttrs p := by
  simp only [pathEval, hcd]

theorem writePath_noop (g : LiveGraph) (p : FuncPath) (o : Func)
    (h : pathEval g p = some o)
    (hnotadd : ∀ cd, g.classes p.parent = some cd → (cd.own p.name).isSome = true) :
    writePath g (p, o) = g := by
  rcases hcd : g.classes p.parent with _ | cd
  · have hattr : g.moduleAttrs p = some o := by
      rw [← pathEval_mod_eq g p hcd]
      exact h
    rw [writePath_eq_setModCell g (p, o) hcd]
    exact setModCell_noop g p _ hattr
  · obtain ⟨w, hw⟩ := Option.isSome_iff_exists.mp (hnotadd cd hcd)
    have hfuel : 0 < g.mroFuel :=
      pathEval_class_fuel_pos g p o (by rw [hcd]; rfl) h
    have hval : classGetattr g g.mroFuel p.parent p.name = some w :=
      classGetattr_own_some g g.mroFuel p.parent p.name cd w hfuel hcd hw
    have how : some o = some w := by
      rw [← hval, ← pathEval_class_eq g p cd hcd]
      exact h.symm
    rw [writePath_eq_setOwnCell g (p, o) (by rw [hcd]; rfl)]
    exact setOwnCell_noop g _ _ _ cd hcd (by rw [hw, ← Option.some.inj how])

theorem del_writePath_addition (g : LiveGraph) (p : FuncPath) (o : Func)
    (cd : ClassDef) (hcls : g.classes p.parent = some cd)
    (hown : cd.own p.name = none) : del_func (writePath g (p, o)) p = g := by
  rw [writePath_eq_setOwnCell g (p, o) (by rw [hcls]; rfl),
    del_func_eq_setOwnCell _ p (by rw [setOwnCell_classes_isSome, hcls]; rfl),
    setOwnCell_same]
  exact setOwnCell_noop g _ _ none cd hcls hown

theorem classGetattr_setModCell (g : LiveGraph) (q : FuncPath) (w : Option Func)
    (fuel : Nat) : ∀ (P N : String),
    classGetattr (setModCell g q w) fuel P N = classGetattr g fuel P N := by
  induction fuel with
  | zero =>
    intro P N
    rfl
  | succ fuel ih =>
    intro P N
    simp only [classGetattr, setModCell_classes]
    rcases hc : g.classes P with _ | cd
    · rfl
    · dsimp only
      rcases hown : cd.own N with _ | f
      · dsimp only
        rcases hbase : cd.base with _ | b
        · rfl
        · exact ih b N
      · rfl

theorem classGetattr_isSome_setOwnCell (g : LiveGraph) (P0 N0 : String) (v : Func)
    (fuel : Nat) : ∀ (P N : String), (classGetattr g fuel P N).isSome = true →
    (classGetattr (setOwnCell g P0 N0 (some v)) fuel P N).isSome = true := by
  rcases h0 : g.classes P0 with _ | cd0
  · intro P N h
    rw [setOwnCell_none_def g P0 N0 _ h0]
    exact h
  · have hclass : (setOwnCell g P0 N0 (some v)).classes = fun c =>
        if c = P0 then
          some ⟨fun n => if n = N0 then some v else cd0.own n, cd0.base⟩
        else g.classes c := by
      rw [setOwnCell_some_def g P0 N0 _ cd0 h0]
    induction fuel with
    | zero =>
      intro P N h
      simp [classGetattr] at h
    | succ fuel ih =>
      intro P N h
      simp only [classGetattr, hclass]
      by_cases hP : P = P0
      · rw [if_pos hP]
        have hgP : g.classes P = some cd0 := by rw [hP, h0]
        simp only [classGetattr, hgP] at h
        dsimp only at h ⊢
        by_cases hN : N = N0
        · rw [if_pos hN]
          rfl
        · rw [if_neg hN]
          rcases hown : cd0.own N with _ | f
          · simp only [hown] at h ⊢
            rcases hbase : cd0.base with _ | b
            · simp only [hbase] at h
              simp at h
            · simp only [hbase] at h ⊢
              exact ih b N h
          · simp only [hown]
            rfl
      · rw [if_neg hP]
        rcases hc : g.classes P with _ | cd
        · simp only [classGetattr, hc] at h
          simp at h
        · simp only [classGetattr, hc] at h
          dsimp only at h ⊢
          rcases hown : cd.own N with _ | f
          · simp only [hown] at h ⊢
            rcases hbase : cd.base with _ | b
            · simp only [hbase] at h
              simp at h
            · simp only [hbase] at h ⊢
              exact ih b N h
          · simp only [hown]
            rfl

theorem pathEval_isSome_writePath (g : LiveGraph) (pf : FuncPath × Func) (q : FuncPath)
    (h : (pathEval g q).isSome = true) :
    (pathEval (writePath g pf) q).isSome = true := by
  rcases h1 : g.classes pf.1.parent with _ | cd1
  · rw [writePath_eq_setModCell g pf h1]
    rcases hq : g.classes q.parent with _ | cdq
    · rw [pathEval_mod_eq g q hq] at h
      rw [pathEval_mod_eq _ q (by rw [setModCell_classes]; exact hq)]
      dsimp only [setModCell]
      by_cases he : q = pf.1
      · rw [if_pos he]
        rfl
      · rw [if_neg he]
        exact h
    · rw [pathEval_class_eq g q cdq hq] at h
      rw [pathEval_class_eq _ q cdq (by rw [setModCell_classes]; exact hq)]
      rw [setModCell_mroFuel, classGetattr_setModCell]
      exact h
  · rw [writePath_eq_setOwnCell g pf (by rw [h1]; rfl)]
    rcases hq : g.classes q.parent with _ | cdq
    · rw [pathEval_mod_eq g q hq] at h
      rw [pathEval_mod_eq _ q (setOwnCell_classes_none g _ _ _ _ hq),
        setOwnCell_moduleAttrs]
      exact h
    · rw [pathEval_class_eq g q cdq hq] at h
      obtain ⟨cdq', hq'⟩ := Option.isSome_iff_exists.mp
        (by rw [setOwnCell_classes_isSome, hq]; rfl :
          ((setOwnCell g pf.1.parent pf.1.name (some pf.2)).classes q.parent).isSome = true)
      rw [pathEval_class_eq _ q cdq' hq', setOwnCell_mroFuel]
      exact classGetattr_isSome_setOwnCell g _ _ _ _ _ _ h

theorem set_func_some (g : LiveGraph) (p : FuncPath) (f : Func)
    (h : (pathEval g p).isSome = true) : set_func g p f = some (writePath g (p, f)) := by
  obtain ⟨o, ho⟩ := Option.isSome_iff_exists.mp h
  simp only [set_func, ho]

theorem setAll_eq_foldl (L : List (FuncPath × Func)) (g : LiveGraph)
    (h : ∀ pf ∈ L, (pathEval g pf.1).isSome = true) :
    setAll g L = some (L.foldl writePath g) := by
  induction L generalizing g with
  | nil => rfl
  | cons pf rest ih =>
    simp only [setAll, List.foldl_cons]
    rw [set_func_some g pf.1 pf.2 (h pf (List.mem_cons_self _ _))]
    exact ih (writePath g (pf.1, pf.2))
      (fun pf' h' => pathEval_isSome_writePath g (pf.1, pf.2) pf'.1
        (h pf' (List.mem_cons_of_mem _ h')))

theorem pathEval_isSome_foldl (L : List (FuncPath × Func)) (g : LiveGraph)
    (q : FuncPath) (h : (pathEval g q).isSome = true) :
    (pathEval (L.foldl writePath g) q).isSome = true := by
  induction L generalizing g with
  | nil => exact h
  | cons pf rest ih =>
    exact ih (writePath g pf) (pathEval_isSome_writePath g pf q h)

/-- Classification used by `enter`: the target is an addition when its
parent is a class and the class own dictionary has no entry for the name
(the `__getattribute__` probe fails, lookup succeeds only via
inheritance). -/
def additionB (g : LiveGraph) (p : FuncPath) : Bool :=
  (g.classes p.parent).isSome && (ownGetattribute g p.parent p.name).isNone

theorem forall2_fst_eq (R O : List (FuncPath × Func))
    (h : List.Forall₂ (fun rc oc => rc.1 = oc.1) R O) :
    R.map Prod.fst = O.map Prod.fst := by
  induction h with
  | nil => rfl
  | cons hpq _ ih => simp [hpq, ih]

/-- Core round-trip lemma: writing the replacement at every resolved path,
then writing the snapshotted originals back, then deleting the addition
paths, restores the graph exactly.  The snapshots and the addition
classification are taken on the initial graph, as `enter` does before any
substitution. -/
theorem write_restore_delete (g : LiveGraph) (R O : List (FuncPath × Func))
    (A : List FuncPath)
    (hall : List.Forall₂ (fun rc oc => rc.1 = oc.1) R O)
    (hnd : (R.map Prod.fst).Nodup)
    (hov : ∀ oc ∈ O, pathEval g oc.1 = some oc.2)
    (hA : A = (R.map Prod.fst).filter (fun p => additionB g p)) :
    A.foldl del_func (O.foldl writePath (R.foldl writePath g)) = g := by
  induction R generalizing O A with
  | nil =>
    cases hall
    subst hA
    rfl
  | cons a₁ l₁ ih =>
    rcases hall with _ | @⟨_, b, _, l₂, hpq, hrest⟩
    obtain ⟨p, c⟩ := a₁
    obtain ⟨p2, o⟩ := b
    have hpe : p = p2 := hpq
    subst hpe
    simp only [List.map_cons, List.nodup_cons] at hnd
    have hpnot : p ∉ l₁.map Prod.fst := hnd.1
    have hfst : l₁.map Prod.fst = l₂.map Prod.fst := forall2_fst_eq l₁ l₂ hrest
    have hl1 : ∀ pf ∈ l₁, pf.1 ≠ p := by
      intro pf hpf he
      exact hpnot (he ▸ List.mem_map_of_mem Prod.fst hpf)
    have hl2 : ∀ pf ∈ l₂, pf.1 ≠ p := by
      intro pf hpf he
      apply hpnot
      rw [hfst]
      exact he ▸ List.mem_map_of_mem Prod.fst hpf
    have ho : pathEval g p = some o := hov (p, o) (List.mem_cons_self _ _)
    have hov' : ∀ oc ∈ l₂, pathEval g oc.1 = some oc.2 :=
      fun oc h' => hov oc (List.mem_cons_of_mem _ h')
    simp only [List.foldl_cons]
    rw [← foldl_writePath_comm l₁ (writePath g (p, c)) p o hl1,
      writePath_writePath_same g p c o]
    by_cases hadd : additionB g p = true
    · have hAc : A = p :: (l₁.map Prod.fst).filter (fun q => additionB g q) := by
        rw [hA, List.map_cons, List.filter_cons, if_pos hadd]
      obtain ⟨hcls, hown⟩ : (g.classes p.parent).isSome = true ∧
          (ownGetattribute g p.parent p.name).isNone = true := by
        simpa [additionB] using hadd
      obtain ⟨cd, hcd⟩ := Option.isSome_iff_exists.mp hcls
      have hcdown : cd.own p.name = none := by
        have : ownGetattribute g p.parent p.name = none :=
          Option.isNone_iff_eq_none.mp hown
        simpa [ownGetattribute, hcd] using this
      rw [hAc]
      simp only [List.foldl_cons]
      rw [foldl_del_writePath_comm l₂ _ p hl2,
        foldl_del_writePath_comm l₁ (writePath g (p, o)) p hl1,
        del_writePath_addition g p o cd hcd hcdown]
      exact ih l₂ _ hrest hnd.2 hov' rfl
    · have hAc : A = (l₁.map Prod.fst).filter (fun q => additionB g q) := by
        rw [hA, List.map_cons, List.filter_cons, if_neg hadd]
      have hnotadd : ∀ cd, g.classes p.parent = some cd →
          (cd.own p.name).isSome = true := by
        intro cd hcd
        simp only [additionB, hcd] at hadd
        simp only [Option.isSome_some, Bool.true_and] at hadd
        rcases hw : cd.own p.name with _ | w
        · exact absurd (by simp [ownGetattribute, hcd, hw]) hadd
        · rfl
      rw [writePath_noop g p o ho hnotadd, hAc]
      exact ih l₂ _ hrest hnd.2 hov' rfl

/-- The `(path, original)` snapshots collected by the first loop of `enter`:
one pair for each resolved record whose target imports, in order. -/
def origsOf (g : LiveGraph) (L : List (FuncPath × Record)) : List (FuncPath × Func) :=
  L.filterMap (fun pr => (pathEval g pr.1).map (fun o => (pr.1, o)))

theorem import_function_eq (g : LiveGraph) (p : FuncPath) :
    import_function g p = (pathEval g p).map
      (fun f => (f, if (g.classes p.parent).isSome = true then some p.parent else none)) := by
  rcases hc : g.classes p.parent with _ | cd
  · simp [import_function, pathEval, hc]
  · simp [import_function, pathEval, hc]

theorem origsOf_values (g : LiveGraph) (L : List (FuncPath × Record)) :
    ∀ oc ∈ origsOf g L, pathEval g oc.1 = some oc.2 := by
  intro oc hoc
  obtain ⟨pr, _, hmap⟩ := List.mem_filterMap.mp hoc
  rcases hpe : pathEval g pr.1 with _ | f
  · rw [hpe] at hmap
    cases hmap
  · rw [hpe] at hmap
    have : (pr.1, f) = oc := Option.some.inj hmap
    rw [← this]
    exact hpe

theorem origsOf_fst_all (g : LiveGraph) (L : List (FuncPath × Record))
    (h : ∀ pr ∈ L, (pathEval g pr.1).isSome = true) :
    (origsOf g L).map Prod.fst = L.map Prod.fst := by
  induction L with
  | nil => rfl
  | cons e rest ih =>
    obtain ⟨o, ho⟩ := Option.isSome_iff_exists.mp (h e (List.mem_cons_self _ _))
    have ihr := ih (fun pr h' => h pr (List.mem_cons_of_mem _ h'))
    simp only [origsOf] at ihr ⊢
    simp [List.filterMap_cons, ho, ihr]

theorem forall2_of_fst_eq (R O : List (FuncPath × Func))
    (h : R.map Prod.fst = O.map Prod.fst) :
    List.Forall₂ (fun rc oc => rc.1 = oc.1) R O := by
  induction R generalizing O with
  | nil =>
    cases O with
    | nil => exact List.Forall₂.nil
    | cons b l₂ => simp at h
  | cons a l₁ ih =>
    cases O with
    | nil => simp at h
    | cons b l₂ =>
      simp only [List.map_cons, List.cons.injEq] at h
      exact List.Forall₂.cons h.1 (ih l₂ h.2)

theorem enterLoop_spec (g : LiveGraph) (iw : Func → Bool) (L : List (FuncPath × Record)) :
    ∀ acc : EnterAcc,
      (enterLoop g iw L acc).origin_functions =
          acc.origin_functions ++ origsOf g L ∧
        (enterLoop g iw L acc).new_functions.map Prod.fst =
          acc.new_functions.map Prod.fst ++ (origsOf g L).map Prod.fst ∧
        (enterLoop g iw L acc).additional_functions =
          acc.additional_functions ++
            ((origsOf g L).map Prod.fst).filter (fun p => additionB g p) := by
  induction L with
  | nil =>
    intro acc
    refine ⟨?_, ?_, ?_⟩ <;> simp [enterLoop, origsOf]
  | cons e rest ih =>
    intro acc
    obtain ⟨p, rec'⟩ := e
    rcases himp : import_function g p with _ | pr
    · have hev : pathEval g p = none := by
        have he := import_function_eq g p
        rw [himp] at he
        exact Option.map_eq_none'.mp he.symm
      have hor : origsOf g ((p, rec') :: rest) = origsOf g rest := by
        simp [origsOf, List.filterMap_cons, hev]
      simp only [enterLoop, himp, hor]
      exact ih acc
    · obtain ⟨origin_func, origin_class⟩ := pr
      have he := import_function_eq g p
      rw [himp] at he
      rcases hev : pathEval g p with _ | f
      · rw [hev] at he
        cases he
      · rw [hev] at he
        have hpair := Option.some.inj he
        have hof : origin_func = f := congrArg Prod.fst hpair
        have hoc : origin_class =
            (if (g.classes p.parent).isSome = true then some p.parent else none) :=
          congrArg Prod.snd hpair
        subst hof
        subst hoc
        have hor : origsOf g ((p, rec') :: rest) =
            (p, origin_func) :: origsOf g rest := by
          simp [origsOf, List.filterMap_cons, hev]
        simp only [enterLoop, himp]
        by_cases hcb : (g.classes p.parent).isSome = true
        · rw [if_pos hcb]
          have haddeq : (ownGetattribute g p.parent p.name).isNone = additionB g p := by
            simp [additionB, hcb]
          dsimp only
          refine ⟨?_, ?_, ?_⟩
          · rw [(ih _).1, hor]
            simp [List.append_assoc]
          · rw [(ih _).2.1, hor]
            simp [List.append_assoc]
          · rw [(ih _).2.2, hor, haddeq]
            rw [List.map_cons, List.filter_cons]
            by_cases hb : additionB g p = true
            · rw [if_pos hb, if_pos hb]
              simp [List.append_assoc]
            · rw [if_neg hb, if_neg hb]
        · rw [if_neg hcb]
          have haddf : additionB g p = false := by
            simp only [Bool.not_eq_true] at hcb
            simp [additionB, hcb]
          dsimp only
          refine ⟨?_, ?_, ?_⟩
          · rw [(ih _).1, hor]
            simp [List.append_assoc]
          · rw [(ih _).2.1, hor]
            simp [List.append_assoc]
          · rw [(ih _).2.2, hor]
            rw [List.map_cons, List.filter_cons]
            simp only [haddf]
            simp

/-- Shared construction for the round-trip claims: under the dict invariant
(distinct registry keys) and existence of all resolved targets, `enter` and
`exit` both succeed, the graph inside the session is the fold of the
substitutions over the initial graph, the substituted paths are exactly the
resolved paths, and the graph after `exit` is the initial graph again. -/
theorem enter_exit_spec (reg : RewriterRegistry) (env : Env)
    (is_wrapped : Func → Bool) (g : LiveGraph) (fx : List Func) (nid : Nat)
    (hnd : (reg.rewrite_records.map Prod.fst).Nodup)
    (hex : ∀ pr ∈ (reg.get_records env).1, (pathEval g pr.1).isSome = true) :
    ∃ s1 s2,
      FunctionRewriter.enter reg env is_wrapped (FunctionRewriter.init g fx nid) =
          some s1 ∧
        FunctionRewriter.exit s1 = some s2 ∧
        s1.graph = (enterLoop g is_wrapped ((reg.get_records env).1)
          ⟨[], [], [], [], fx, nid⟩).new_functions.foldl writePath g ∧
        (enterLoop g is_wrapped ((reg.get_records env).1)
          ⟨[], [], [], [], fx, nid⟩).new_functions.map Prod.fst =
            ((reg.get_records env).1).map Prod.fst ∧
        s2.graph = g := by
  obtain ⟨h1, h2, h3⟩ := enterLoop_spec g is_wrapped ((reg.get_records env).1)
    ⟨[], [], [], [], fx, nid⟩
  simp only [List.nil_append, List.map_nil] at h1 h2 h3
  generalize hacc : enterLoop g is_wrapped ((reg.get_records env).1)
    ⟨[], [], [], [], fx, nid⟩ = acc at h1 h2 h3
  have hofst := origsOf_fst_all g ((reg.get_records env).1) hex
  have hLnd : (((reg.get_records env).1).map Prod.fst).Nodup :=
    getRecordsLoop_keys_nodup env reg.rewrite_records hnd
  have hRall : ∀ pf ∈ acc.new_functions, (pathEval g pf.1).isSome = true := by
    intro pf hpf
    have hmem : pf.1 ∈ (origsOf g ((reg.get_records env).1)).map Prod.fst := by
      rw [← h2]
      exact List.mem_map_of_mem Prod.fst hpf
    rw [hofst] at hmem
    obtain ⟨pr, hpr, hpr1⟩ := List.mem_map.mp hmem
    rw [← hpr1]
    exact hex pr hpr
  have hsetR := setAll_eq_foldl acc.new_functions g hRall
  have hOall : ∀ oc ∈ acc.origin_functions,
      (pathEval (acc.new_functions.foldl writePath g) oc.1).isSome = true := by
    intro oc hoc
    have hv := origsOf_values g ((reg.get_records env).1) oc (h1 ▸ hoc)
    exact pathEval_isSome_foldl _ g oc.1 (by rw [hv]; rfl)
  have hsetO := setAll_eq_foldl acc.origin_functions
    (acc.new_functions.foldl writePath g) hOall
  have hrt : acc.additional_functions.foldl del_func
      (acc.origin_functions.foldl writePath (acc.new_functions.foldl writePath g)) =
        g := by
    apply write_restore_delete g acc.new_functions acc.origin_functions
      acc.additional_functions
    · apply forall2_of_fst_eq
      rw [h2, h1]
    · rw [h2, hofst]
      exact hLnd
    · intro oc hoc
      exact origsOf_values g ((reg.get_records env).1) oc (h1 ▸ hoc)
    · rw [h3, h2]
  refine ⟨{ graph := acc.new_functions.foldl writePath g
            wrapped_fns := acc.wrapped_fns
            func_contexts := acc.func_contexts
            ori_fx_wrap_num := some fx.length
            origin_functions := some acc.origin_functions
            additional_functions := some acc.additional_functions
            next_id := acc.next_id },
        { graph := g
          wrapped_fns := acc.wrapped_fns.take
            (acc.wrapped_fns.length - (acc.wrapped_fns.length - fx.length))
          func_contexts := []
          ori_fx_wrap_num := some fx.length
          origin_functions := some acc.origin_functions
          additional_functions := some acc.additional_functions
          next_id := acc.next_id }, ?_, ?_, rfl, ?_, rfl⟩
  · simp only [FunctionRewriter.enter, FunctionRewriter.init]
    rw [hacc, hsetR]
  · simp only [FunctionRewriter.exit]
    rw [hsetO]
    dsimp only
    rw [hrt]
  · rw [h2, hofst]

/-- C1: for a registry (with the dict invariant of distinct path keys)
whose resolved candidates all locate existing targets in the live graph,
`enter` followed by `exit` succeeds and restores the live graph to an
observably identical state: every function path evaluates to the same
callable after `exit` as it did before `enter` (the restored graph is in
fact structurally equal to the original one). -/
theorem c1_enter_exit_round_trip (reg : RewriterRegistry) (env : Env)
    (is_wrapped : Func → Bool) (g : LiveGraph) (fx : List Func) (nid : Nat)
    (hnd : (reg.rewrite_records.map Prod.fst).Nodup)
    (hex : ∀ pr ∈ (reg.get_records env).1, (pathEval g pr.1).isSome = true) :
    ∃ s1 s2,
      FunctionRewriter.enter reg env is_wrapped (FunctionRewriter.init g fx nid) =
          some s1 ∧
        FunctionRewriter.exit s1 = some s2 ∧
        ∀ p, pathEval s2.graph p = pathEval g p := by
  obtain ⟨s1, s2, he, hx, _, _, hg⟩ :=
    enter_exit_spec reg env is_wrapped g fx nid hnd hex
  exact ⟨s1, s2, he, hx, fun p => by rw [hg]⟩

theorem setOwnCell_own_other (g : LiveGraph) (P0 N0 : String) (v : Option Func)
    (P N : String) (hne : ¬(P0 = P ∧ N0 = N)) :
    ownGetattribute (setOwnCell g P0 N0 v) P N = ownGetattribute g P N := by
  rcases h0 : g.classes P0 with _ | cd0
  · rw [setOwnCell_none_def g P0 N0 v h0]
  · rw [setOwnCell_some_def g P0 N0 v cd0 h0]
    by_cases hP : P = P0
    · subst hP
      have hN : ¬N = N0 := fun he => hne ⟨rfl, he.symm⟩
      simp [ownGetattribute, h0, hN]
    · simp [ownGetattribute, hP]

theorem setOwnCell_own_set (g : LiveGraph) (P N : String) (v : Option Func)
    (h : (g.classes P).isSome = true) :
    ownGetattribute (setOwnCell g P N v) P N = v := by
  obtain ⟨cd, hcd⟩ := Option.isSome_iff_exists.mp h
  rw [setOwnCell_some_def g P N v cd hcd]
  simp [ownGetattribute]

theorem writePath_own_other (g : LiveGraph) (pf : FuncPath × Func) (p : FuncPath)
    (hne : pf.1 ≠ p) :
    ownGetattribute (writePath g pf) p.parent p.name =
      ownGetattribute g p.parent p.name := by
  rcases h : g.classes pf.1.parent with _ | cd
  · rw [writePath_eq_setModCell g pf h]
    rfl
  · rw [writePath_eq_setOwnCell g pf (by rw [h]; rfl)]
    exact setOwnCell_own_other g _ _ _ _ _
      (fun hpn => hne (funcPathExt _ _ hpn.1 hpn.2))

theorem writePath_own_set (g : LiveGraph) (p : FuncPath) (v : Func)
    (h : (g.classes p.parent).isSome = true) :
    ownGetattribute (writePath g (p, v)) p.parent p.name = some v := by
  rw [writePath_eq_setOwnCell g (p, v) h]
  exact setOwnCell_own_set g _ _ _ h

theorem foldl_own_other (L : List (FuncPath × Func)) (g : LiveGraph) (p : FuncPath)
    (h : ∀ pf ∈ L, pf.1 ≠ p) :
    ownGetattribute (L.foldl writePath g) p.parent p.name =
      ownGetattribute g p.parent p.name := by
  induction L generalizing g with
  | nil => rfl
  | cons pf rest ih =>
    simp only [List.foldl_cons]
    rw [ih (writePath g pf) (fun pf' h' => h pf' (List.mem_cons_of_mem _ h')),
      writePath_own_other g pf p (h pf (List.mem_cons_self _ _))]

theorem foldl_own_mem (L : List (FuncPath × Func)) (g : LiveGraph) (p : FuncPath)
    (v : Func) (hmem : (p, v) ∈ L) (hnd : (L.map Prod.fst).Nodup)
    (hcls : (g.classes p.parent).isSome = true) :
    (ownGetattribute (L.foldl writePath g) p.parent p.name).isSome = true := by
  induction L generalizing g with
  | nil => simp at hmem
  | cons pf rest ih =>
    simp only [List.map_cons, List.nodup_cons] at hnd
    simp only [List.foldl_cons]
    rcases List.mem_cons.mp hmem with h1 | h1
    · have hrest : ∀ pf' ∈ rest, pf'.1 ≠ p := by
        intro pf' h' he
        apply hnd.1
        have hmm : pf'.1 ∈ rest.map Prod.fst := List.mem_map_of_mem Prod.fst h'
        rw [he] at hmm
        rw [← h1]
        exact hmm
      rw [foldl_own_other rest (writePath g pf) p hrest, ← h1,
        writePath_own_set g p v hcls]
      rfl
    · exact ih (writePath g pf) h1 hnd.2
        (by rw [writePath_classes_isSome]; exact hcls)

/-- C8: a resolved target whose parent is a class and whose attribute
lookup succeeds only via inheritance (no entry in the own dictionary of the
class) is classified as an addition: after `enter` the own dictionary of
the class holds the attribute (so the path exists directly on the class),
and after `exit` the own-dictionary entry is gone again (deleted, not
restored), exactly as before `enter`. -/
theorem c8_addition_set_then_deleted (reg : RewriterRegistry) (env : Env)
    (is_wrapped : Func → Bool) (g : LiveGraph) (fx : List Func) (nid : Nat)
    (p : FuncPath) (r : Record)
    (hnd : (reg.rewrite_records.map Prod.fst).Nodup)
    (hex : ∀ pr ∈ (reg.get_records env).1, (pathEval g pr.1).isSome = true)
    (hm : (p, r) ∈ (reg.get_records env).1)
    (hcls : (g.classes p.parent).isSome = true)
    (hown : ownGetattribute g p.parent p.name = none) :
    ∃ s1 s2,
      FunctionRewriter.enter reg env is_wrapped (FunctionRewriter.init g fx nid) =
          some s1 ∧
        FunctionRewriter.exit s1 = some s2 ∧
        (ownGetattribute s1.graph p.parent p.name).isSome = true ∧
        ownGetattribute s2.graph p.parent p.name = none := by
  obtain ⟨s1, s2, he, hx, hg1, hfst, hg2⟩ :=
    enter_exit_spec reg env is_wrapped g fx nid hnd hex
  refine ⟨s1, s2, he, hx, ?_, ?_⟩
  · have hpmem : p ∈ (enterLoop g is_wrapped ((reg.get_records env).1)
        ⟨[], [], [], [], fx, nid⟩).new_functions.map Prod.fst := by
      rw [hfst]
      exact List.mem_map_of_mem Prod.fst hm
    obtain ⟨pf, hpf, hpf1⟩ := List.mem_map.mp hpmem
    have hpair : (p, pf.2) ∈ (enterLoop g is_wrapped ((reg.get_records env).1)
        ⟨[], [], [], [], fx, nid⟩).new_functions := by
      rw [← hpf1]
      exact hpf
    have hndR : ((enterLoop g is_wrapped ((reg.get_records env).1)
        ⟨[], [], [], [], fx, nid⟩).new_functions.map Prod.fst).Nodup := by
      rw [hfst]
      exact getRecordsLoop_keys_nodup env reg.rewrite_records hnd
    rw [hg1]
    exact foldl_own_mem _ g p pf.2 hpair hndR hcls
  · rw [hg2]
    exact hown

/-- Concrete live graph for the C1 witness: class `mod.C` inherits `meth`
from `mod.B`, and module function `mod.h` exists. -/
def c1exGraph : LiveGraph :=
  ⟨fun c =>
    if c = "mod.B" then
      some ⟨fun n => if n = "meth" then some ⟨0, "B.meth"⟩ else none, none⟩
    else if c = "mod.C" then some ⟨fun _ => none, some "mod.B"⟩
    else none,
   fun q => if q = ⟨"mod", "h"⟩ then some ⟨1, "mod.h"⟩ else none,
   2⟩

/-- Concrete registry for the C1 witness: a default rewrite of the
inherited method and a backend-checked rewrite of the module function. -/
def c1exReg : RewriterRegistry :=
  ⟨[(⟨"mod.C", "meth"⟩, [⟨[], ⟨10, "rw.meth"⟩⟩]),
    (⟨"mod", "h"⟩, [⟨[Checker.backend "tensorrt"], ⟨11, "rw.h"⟩⟩])]⟩

theorem c1_enter_exit_round_trip_witness :
    ∃ s1 s2,
      FunctionRewriter.enter c1exReg ⟨"tensorrt", "onnx", fun _ => none⟩
          (fun _ => false) (FunctionRewriter.init c1exGraph [] 0) = some s1 ∧
        FunctionRewriter.exit s1 = some s2 ∧
        ∀ p, pathEval s2.graph p = pathEval c1exGraph p :=
  c1_enter_exit_round_trip c1exReg ⟨"tensorrt", "onnx", fun _ => none⟩
    (fun _ => false) c1exGraph [] 0 (by decide) (by decide)

/-- Concrete live graph for the C8 witness, as in the C1 witness. -/
def c8exGraph : LiveGraph :=
  ⟨fun c =>
    if c = "pkg.Base" then
      some ⟨fun n => if n = "fw" then some ⟨0, "Base.fw"⟩ else none, none⟩
    else if c = "pkg.Derived" then some ⟨fun _ => none, some "pkg.Base"⟩
    else none,
   fun _ => none,
   2⟩

/-- Concrete registry for the C8 witness: one default rewrite of the method
that `pkg.Derived` only inherits. -/
def c8exReg : RewriterRegistry :=
  ⟨[(⟨"pkg.Derived", "fw"⟩, [⟨[], ⟨10, "rw.fw"⟩⟩])]⟩

theorem c8_addition_set_then_deleted_witness :
    ∃ s1 s2,
      FunctionRewriter.enter c8exReg ⟨"tensorrt", "onnx", fun _ => none⟩
          (fun _ => false) (FunctionRewriter.init c8exGraph [] 0) = some s1 ∧
        FunctionRewriter.exit s1 = some s2 ∧
        (ownGetattribute s1.graph "pkg.Derived" "fw").isSome = true ∧
        ownGetattribute s2.graph "pkg.Derived" "fw" = none :=
  c8_addition_set_then_deleted c8exReg ⟨"tensorrt", "onnx", fun _ => none⟩
    (fun _ => false) c8exGraph [] 0 ⟨"pkg.Derived", "fw"⟩ ⟨[], ⟨10, "rw.fw"⟩⟩
    (by decide) (by decide) (by decide) (by decide) (by decide)
